import Mathlib

/-!
Verification of the eule `DlAllocator` (src/allocator.cpp), a boundary-tag,
size-sorted free-list allocator managing a caller-supplied byte range.

Shallow embedding conventions:

* Addresses are natural numbers (no address-space wraparound is modelled);
  `size_type` (= `uintptr_t`, 8 bytes on the modelled LP64 platform)
  arithmetic wraps modulo `2^64` exactly where the C++ does
  (`numBytes += ...`, the alignment masks, the `chunkSize` accumulation).
* `max_alignment` is `alignof(union {long long; double; long double; void*})`
  which is 16 on the modelled x86-64 platform; `sizeof(Header) = 32`.
* Memory is a word-addressed map `Nat → Nat`.  For a chunk header at
  address `a`, the `prevSize` field is the word at `a` and the `thisSize`
  field is the word at `a + 8`, exactly as the struct is laid out.  The
  `nextFree` / `prevFree` fields form an intrusive doubly linked list whose
  back pointers (`prevFree` holds the address of the slot pointing at the
  node) exist solely so that `link` performs an ordered insertion and
  `unlink` removes the node in O(1); the embedding keeps the traversal
  order of that list as a Lean `List Nat` of header addresses, with
  `Header::link` as sorted insertion (`linkList`) and `Header::unlink` as
  removal of the node (`List.erase`).
-/

namespace Eule

/-- Word width of `DlAllocator::Header::size_type` (`uintptr_t`): 2^64. -/
def W : Nat := 2 ^ 64

/-- `max_alignment = alignment_of<maximum_aligned_type>::value` (16 on x86-64). -/
def maxAlignment : Nat := 16

/-- `sizeof(Header::size_type)` = `sizeof(void*)` = 8. -/
def sizeTypeBytes : Nat := 8

/-- `Header::InUse` — the low bit of a size field marks the chunk in use. -/
def InUse : Nat := 1

/-- `Header::minimum_alloc_size = 2 * sizeof(size_type)`. -/
def minimumAllocSize : Nat := 2 * sizeTypeBytes

/-- `sizeof(Header) = 4 * sizeof(void*)` (checked by a static_assert). -/
def headerBytes : Nat := 4 * sizeTypeBytes

/-- Offset between a header and its payload: `2 * sizeof(size_type)`
(`Header::toPayload` / `Header::payloadToHeader`). -/
def payloadOffset : Nat := 2 * sizeTypeBytes

/-- Word-addressed memory holding the `prevSize`/`thisSize` header fields. -/
def Mem : Type := Nat → Nat

/-- Store value `v` in the word at address `a`. -/
def writeWord (m : Mem) (a v : Nat) : Mem := fun x => if x = a then v else m x

/-- The `prevSize` field of the header at `a` (the word at offset 0). -/
def prevSizeWord (m : Mem) (a : Nat) : Nat := m a

/-- The `thisSize` field of the header at `a` (the word at offset 8). -/
def thisSizeWord (m : Mem) (a : Nat) : Nat := m (a + sizeTypeBytes)

/-- `x & ~InUse` on 64-bit words: clear the in-use bit. -/
def maskFlag (x : Nat) : Nat := x &&& (W - 2)

/-- `Header::size()`: `thisSize & ~InUse`. -/
def hSize (m : Mem) (a : Nat) : Nat := maskFlag (thisSizeWord m a)

/-- `Header::previousSize()`: `prevSize & ~InUse`. -/
def previousSize (m : Mem) (a : Nat) : Nat := maskFlag (prevSizeWord m a)

/-- `Header::next()`: this header's address plus `size()`. -/
def nextHeader (m : Mem) (a : Nat) : Nat := a + hSize m a

/-- `Header::setSize(size, used)`: store `size | InUse` in `thisSize` and
mirror it into `next()->prevSize` (with `next()` computed from the updated
`thisSize`, as in the source). -/
def setSizeUsed (m : Mem) (a sz : Nat) : Mem :=
  let m1 := writeWord m (a + sizeTypeBytes) (sz ||| InUse)
  writeWord m1 (nextHeader m1 a) (sz ||| InUse)

/-- `Header::setSize(size, free)`: store `size` in `thisSize` and mirror it
into `next()->prevSize`. -/
def setSizeFree (m : Mem) (a sz : Nat) : Mem :=
  let m1 := writeWord m (a + sizeTypeBytes) sz
  writeWord m1 (nextHeader m1 a) sz

/-- `Header::nextIfFree()`: the following chunk if its in-use bit is clear. -/
def nextIfFree (m : Mem) (a : Nat) : Option Nat :=
  let header := nextHeader m a
  if thisSizeWord m header &&& InUse ≠ 0 then none else some header

/-- `Header::prevIfFree()`: the preceding chunk if the mirrored in-use bit in
this header's `prevSize` is clear. -/
def prevIfFree (m : Mem) (a : Nat) : Option Nat :=
  if prevSizeWord m a &&& InUse ≠ 0 then none else some (a - previousSize m a)

/-- `Header::link(first)`: scan the free list from the head past every chunk
whose `size()` is strictly smaller than this chunk's, and splice this chunk
in before the first chunk of equal-or-greater size (or at the end).  This
abstraction returns the resulting traversal order but omits the stores into
the `nextFree`/`prevFree` fields at chunk offsets `+16`/`+24`.  Those words
lie strictly inside a free chunk of at least `sizeof(Header)` bytes, so the
abstraction coincides with the program exactly when every chunk ever linked
has size at least 32; a 16-byte free chunk's fields overlap the following
header, and there the program and this list diverge.  The `linkR` family of
definitions further down embeds the same code with every store. -/
def linkList (m : Mem) (a : Nat) : List Nat → List Nat
  | [] => [a]
  | b :: l => if hSize m b < hSize m a then b :: linkList m a l else a :: b :: l

/-- The allocator state: the managed words plus the free-list traversal
order (`m_freeList` chained through `nextFree`). -/
structure AllocState where
  mem : Mem
  freeList : List Nat

/-- `(x + max_alignment - 1) & -max_alignment` on 64-bit words. -/
def alignUp (x : Nat) : Nat := ((x + (maxAlignment - 1)) % W) &&& (W - maxAlignment)

/-- `x & -max_alignment` on 64-bit words. -/
def alignDown (x : Nat) : Nat := (x % W) &&& (W - maxAlignment)

/-- The constructor's adjusted `begin`: `begin += 2*sizeof(size_type)` then
align up to `max_alignment`. -/
def beginAligned (b : Nat) : Nat := alignUp ((b + 2 * sizeTypeBytes) % W)

/-- The constructor's adjusted `end`: `end -= 2*sizeof(size_type)` (wrapping)
then align down to `max_alignment`. -/
def endAligned (e : Nat) : Nat := alignDown ((e + (W - 2 * sizeTypeBytes)) % W)

/-- `DlAllocator::DlAllocator(begin, end)` acting on the initial memory `m`:
align the range; if `end <= begin` the allocator stays empty; otherwise the
whole interior becomes one free chunk whose `prevSize` and whose successor's
`thisSize` are marked `InUse`, and the chunk is linked into the free list.
Like `linkList`, this omits the trailing `link(&m_freeList)` field stores at
chunk offsets `+16`/`+24`; they are interior words of the single chunk when
the interior is at least 32 bytes, but for a 16-byte interior the program
overwrites the just-written sentinel words with them (see `constructR`). -/
def construct (m : Mem) (b e : Nat) : AllocState :=
  let begin2 := beginAligned b
  let end2 := endAligned e
  if end2 ≤ begin2 then ⟨m, []⟩
  else
    let header := begin2 - payloadOffset
    let m1 := setSizeFree m header (end2 - begin2)
    let m2 := writeWord m1 header InUse
    let m3 := writeWord m2 (nextHeader m2 header + sizeTypeBytes) InUse
    ⟨m3, linkList m3 header []⟩

/-- The chunk size `allocate` really needs for a request of `numBytes`:
clamp to `minimum_alloc_size`, add `2*sizeof(size_type)` of header overhead
(wrapping mod 2^64 as `size_t` does), and round up to `max_alignment`. -/
def neededSize (numBytes : Nat) : Nat :=
  let n1 := if numBytes ≤ minimumAllocSize then minimumAllocSize else numBytes
  alignUp ((n1 + 2 * sizeTypeBytes) % W)

/-- The free-list scan of `DlAllocator::allocate`: the first chunk whose
`size()` is at least `numBytes`. -/
def firstFit (m : Mem) (needed : Nat) : List Nat → Option Nat
  | [] => none
  | a :: l => if needed ≤ hSize m a then some a else firstFit m needed l

/-- `DlAllocator::allocate(numBytes)`: compute the needed chunk size, scan
the free list for the first fit; on failure return null with the state
untouched; on a match unlink the chunk, split it if the remainder can hold
at least a full header (marking the front used and linking the remainder),
otherwise mark the whole chunk used; return the payload pointer. -/
def allocate (st : AllocState) (numBytes : Nat) : Option Nat × AllocState :=
  let needed := neededSize numBytes
  match firstFit st.mem needed st.freeList with
  | none => (none, st)
  | some a =>
    let fl := st.freeList.erase a
    let sz := hSize st.mem a
    let remaining := sz - needed
    if headerBytes ≤ remaining then
      let m1 := setSizeUsed st.mem a needed
      let nxt := nextHeader m1 a
      let m2 := setSizeFree m1 nxt remaining
      (some (a + payloadOffset), ⟨m2, linkList m2 nxt fl⟩)
    else
      let m1 := setSizeUsed st.mem a sz
      (some (a + payloadOffset), ⟨m1, fl⟩)

/-- `DlAllocator::deallocate(ptr)`: recover the header, absorb a free right
neighbour and then a free left neighbour (unlinking each), write the merged
size as a free chunk and link it into the free list.  All neighbour lookups
read the memory as it was on entry, exactly as the source does. -/
def deallocate (st : AllocState) (p : Nat) : AllocState :=
  let self := p - payloadOffset
  let m := st.mem
  let sz0 := hSize m self
  let step1 : List Nat × Nat :=
    match nextIfFree m self with
    | some nxt => (st.freeList.erase nxt, (sz0 + hSize m nxt) % W)
    | none => (st.freeList, sz0)
  let step2 : List Nat × Nat × Nat :=
    match prevIfFree m self with
    | some prv => (step1.1.erase prv, (step1.2 + hSize m prv) % W, prv)
    | none => (step1.1, step1.2, self)
  let m1 := setSizeFree m step2.2.2 step2.2.1
  ⟨m1, linkList m1 step2.2.2 step2.1⟩

/-- One external operation on the allocator. -/
inductive Op where
  | alloc : Nat → Op
  | release : Nat → Op

/-- Apply one operation (the result pointer of an allocation is dropped). -/
def applyOp (st : AllocState) : Op → AllocState
  | Op.alloc n => (allocate st n).2
  | Op.release p => deallocate st p

/-- Run a sequence of operations. -/
def runOps (st : AllocState) : List Op → AllocState
  | [] => st
  | o :: l => runOps (applyOp st o) l

/-- Walk the chunk headers from `a` towards the region end `eH`, collecting
the chunk start addresses; `fuel` bounds the recursion and `none` reports a
walk that does not tile the region exactly. -/
def walkChunks (m : Mem) (eH : Nat) : Nat → Nat → Option (List Nat)
  | 0, a => if a = eH then some [] else none
  | fuel + 1, a =>
    if a = eH then some []
    else if hSize m a = 0 then none
    else (walkChunks m eH fuel (a + hSize m a)).map (a :: ·)

/-- `p` points at a live block: it is a payload pointer of a chunk of the
current tiling of `[h0, eH)` and that chunk is marked in use. -/
def liveBlock (h0 eH : Nat) (st : AllocState) (p : Nat) : Bool :=
  match walkChunks st.mem eH (eH - h0) h0 with
  | none => false
  | some cs =>
    decide (payloadOffset ≤ p) && decide ((p - payloadOffset) ∈ cs) &&
      decide (thisSizeWord st.mem (p - payloadOffset) % 2 = 1)

/-- A sequence of operations is valid when every `release` frees a live
block (a pointer previously handed out by `allocate` and not yet freed). -/
def validOps (h0 eH : Nat) (st : AllocState) : List Op → Bool
  | [] => true
  | Op.alloc n :: l => validOps h0 eH ((allocate st n).2) l
  | Op.release p :: l => liveBlock h0 eH st p && validOps h0 eH (deallocate st p) l

/-- `cs` lists the chunk headers tiling `[a, b)` back to back: each chunk's
size is a positive multiple of 16, and each boundary word mirrors the
preceding chunk's `thisSize` unless its in-use bit is set. -/
def tilesSeg (m : Mem) : Nat → Nat → List Nat → Prop
  | a, b, [] => a = b
  | a, b, c :: l =>
    c = a ∧ 16 ≤ hSize m a ∧ hSize m a % 16 = 0 ∧
      (prevSizeWord m (a + hSize m a) = thisSizeWord m a ∨
        prevSizeWord m (a + hSize m a) % 2 = 1) ∧
      tilesSeg m (a + hSize m a) b l

/-- The allocator invariant over the region `[h0, eH)` (with `h0` the first
header and `eH` the sentinel header address): some chunk list tiles the
region, the boundary sentinels are marked in use, the free list holds
only chunk headers, all marked free, without duplicates, sorted by size,
and every chunk is at least `sizeof(Header)` bytes — so the in-memory
`nextFree`/`prevFree` fields of any linked chunk are strictly interior
words and the list abstraction is exact. -/
def Inv (h0 eH : Nat) (st : AllocState) : Prop :=
  ∃ cs : List Nat,
    tilesSeg st.mem h0 eH cs ∧
    prevSizeWord st.mem h0 % 2 = 1 ∧
    thisSizeWord st.mem eH = 1 ∧
    (∀ c ∈ st.freeList, c ∈ cs) ∧
    (∀ c ∈ st.freeList, thisSizeWord st.mem c % 2 = 0) ∧
    st.freeList.Nodup ∧
    st.freeList.Pairwise (fun x y => hSize st.mem x ≤ hSize st.mem y) ∧
    (∀ c ∈ cs, 32 ≤ hSize st.mem c)

/-- Derived closed form of the memory after the split branch of `allocate`
found chunk `a` of size `sz` and carved out `k` bytes (`16 ≤ k`): the front
is marked used at `k`, the remainder header at `a + k` is written free at
`sz - k`, with both mirror words updated. -/
def splitMem (m : Mem) (a k sz : Nat) : Mem :=
  writeWord (writeWord (writeWord (writeWord m (a + 8) (k + 1)) (a + k) (k + 1))
    (a + k + 8) (sz - k)) (a + sz) (sz - k)

/-- Derived closed form of the memory after the no-split branch of
`allocate` marked the whole chunk `a` of size `sz` used. -/
def usedMem (m : Mem) (a sz : Nat) : Mem :=
  writeWord (writeWord m (a + 8) (sz + 1)) (a + sz) (sz + 1)

/-- Derived closed form of the memory written by a non-degenerate
construction: one free chunk of size `T` at header `h`, with the entry
`prevSize` and the sentinel `thisSize` marked `InUse`. -/
def freshMem (m : Mem) (h T : Nat) : Mem :=
  writeWord (writeWord (writeWord (writeWord m (h + 8) T) (h + T) T) h 1) (h + T + 8) 1

/-- Every `alloc` in the list requests at most `2^64 - 32` bytes, so its
needed chunk size cannot wrap and is at least 32. -/
def opsNoWrap : List Op → Bool
  | [] => true
  | Op.alloc n :: l => decide (n + 32 ≤ W) && opsNoWrap l
  | Op.release _ :: l => opsNoWrap l

/-! ### Fully store-accurate embedding of the free list

The definitions below re-translate `Header::link`, `Header::unlink` and
their callers with the free list kept in memory itself, exactly as in the
source: the allocator's `m_freeList` member is a pointer slot at address
`FL`, `nullptr` is the value `0`, a chunk's `nextFree` field is the word at
its address plus 16 and its `prevFree` field (a `Header**`) the word at its
address plus 24, and all pointer and size arithmetic wraps mod `2^64`.
These are used to exhibit the traces on which the program's field stores
overwrite neighbouring header words, where the list abstraction above is no
longer exact. -/

/-- The scan loop of `Header::link`: advance the slot pointer past every
chunk whose `size()` is strictly below `sz`. -/
def linkScanR (m : Mem) (sz : Nat) : Nat → Nat → Nat
  | 0, iter => iter
  | fuel + 1, iter =>
    if m iter = 0 then iter
    else if hSize m (m iter) < sz then linkScanR m sz fuel ((m iter + 16) % W)
    else iter

/-- `Header::link(first)` with its stores: find the insertion slot, store
this chunk's `prevFree` (at `+24`) and `nextFree` (at `+16`), redirect the
slot to this chunk, and point a successor's `prevFree` at this chunk's
`nextFree` field. -/
def linkR (m : Mem) (a first fuel : Nat) : Mem :=
  let iter := linkScanR m (hSize m a) fuel first
  let m1 := writeWord m ((a + 24) % W) iter
  let nf := m1 iter
  let m2 := writeWord m1 ((a + 16) % W) nf
  let m3 := writeWord m2 iter a
  if nf = 0 then m3 else writeWord m3 ((nf + 24) % W) ((a + 16) % W)

/-- `Header::unlink()` with its stores: `*prevFree = nextFree`, then, if
`nextFree` is not null, `nextFree->prevFree = prevFree`. -/
def unlinkR (m : Mem) (a : Nat) : Mem :=
  let m1 := writeWord m (m ((a + 24) % W)) (m ((a + 16) % W))
  let nf := m1 ((a + 16) % W)
  if nf = 0 then m1 else writeWord m1 ((nf + 24) % W) (m1 ((a + 24) % W))

/-- `Header::setSize(size, used)` with wrapping pointer arithmetic. -/
def setSizeUsedR (m : Mem) (a sz : Nat) : Mem :=
  let m1 := writeWord m ((a + 8) % W) (sz ||| InUse)
  writeWord m1 ((a + hSize m1 a) % W) (sz ||| InUse)

/-- `Header::setSize(size, free)` with wrapping pointer arithmetic. -/
def setSizeFreeR (m : Mem) (a sz : Nat) : Mem :=
  let m1 := writeWord m ((a + 8) % W) sz
  writeWord m1 ((a + hSize m1 a) % W) sz

/-- `Header::nextIfFree()` with wrapping pointer arithmetic. -/
def nextIfFreeR (m : Mem) (a : Nat) : Option Nat :=
  let nxt := (a + hSize m a) % W
  if m ((nxt + 8) % W) &&& InUse ≠ 0 then none else some nxt

/-- `Header::prevIfFree()` with wrapping pointer arithmetic. -/
def prevIfFreeR (m : Mem) (a : Nat) : Option Nat :=
  if m a &&& InUse ≠ 0 then none
  else some ((a + (W - maskFlag (m a))) % W)

/-- The free-list scan of `allocate`, following the in-memory `nextFree`
chain from the head value. -/
def findFitR (m : Mem) (needed : Nat) : Nat → Nat → Option Nat
  | 0, _ => none
  | fuel + 1, iter =>
    if iter = 0 then none
    else if needed ≤ hSize m iter then some iter
    else findFitR m needed fuel (m ((iter + 16) % W))

/-- `DlAllocator::allocate` over the store-accurate list.  The chunk size
used by the split decision is re-read after `unlink`, and the remainder is
computed with wrapping subtraction, as in the source. -/
def allocateR (m : Mem) (FL fuel numBytes : Nat) : Option Nat × Mem :=
  let needed := neededSize numBytes
  match findFitR m needed fuel (m FL) with
  | none => (none, m)
  | some a =>
    let m1 := unlinkR m a
    let remaining := (hSize m1 a + (W - needed)) % W
    if headerBytes ≤ remaining then
      let m2 := setSizeUsedR m1 a needed
      let nxt := (a + hSize m2 a) % W
      let m3 := setSizeFreeR m2 nxt remaining
      (some ((a + payloadOffset) % W), linkR m3 nxt FL fuel)
    else
      (some ((a + payloadOffset) % W), setSizeUsedR m1 a (hSize m1 a))

/-- `DlAllocator::deallocate` over the store-accurate list; every neighbour
size is re-read right after the corresponding `unlink`, as in the source. -/
def deallocateR (m : Mem) (FL fuel p : Nat) : Mem :=
  let self := (p + (W - payloadOffset)) % W
  let s1 : Mem × Nat :=
    match nextIfFreeR m self with
    | none => (m, hSize m self)
    | some nxt =>
      let m1 := unlinkR m nxt
      (m1, (hSize m self + hSize m1 nxt) % W)
  let s2 : Mem × Nat × Nat :=
    match prevIfFreeR s1.1 self with
    | none => (s1.1, s1.2, self)
    | some prv =>
      let m2 := unlinkR s1.1 prv
      (m2, (s1.2 + hSize m2 prv) % W, prv)
  let m3 := setSizeFreeR s2.1 s2.2.2 s2.2.1
  linkR m3 s2.2.2 FL fuel

/-- `DlAllocator::DlAllocator` over the store-accurate list, including the
member initialisation `m_freeList(nullptr)` and the trailing
`header->link(&m_freeList)` with its field stores. -/
def constructR (m : Mem) (b e FL fuel : Nat) : Mem :=
  let m0 := writeWord m FL 0
  let begin2 := beginAligned b
  let end2 := endAligned e
  if end2 ≤ begin2 then m0
  else
    let header := (begin2 + (W - payloadOffset)) % W
    let m1 := setSizeFreeR m0 header ((end2 + (W - begin2)) % W)
    let m2 := writeWord m1 header InUse
    let m3 := writeWord m2 ((header + hSize m2 header + 8) % W) InUse
    linkR m3 header FL fuel

/-- Collect the chunk addresses seen when traversing the in-memory free
list from a head value via the `nextFree` fields. -/
def freeListTraverse (m : Mem) : Nat → Nat → List Nat
  | 0, _ => []
  | fuel + 1, ptr =>
    if ptr = 0 then [] else ptr :: freeListTraverse m fuel (m ((ptr + 16) % W))

/-- Initial memory surrounding the region `[32, 80)` whose bytes beyond the
16-byte interior make the phantom merge of a wrapped-request round trip
land on a fake free chunk at 200. -/
def cexMemRT : Mem := fun x =>
  if x = 72 then 1000 else if x = 64 then 200 else if x = 208 then 512 else 0

/-- Initial memory surrounding the region `[32, 80)` whose bytes beyond the
16-byte interior make the phantom merge splice two fake chunks of sizes 48
and 32 — in that order — into the free list. -/
def cexMemSort : Mem := fun x =>
  if x = 72 then 1000 else if x = 64 then 256 else if x = 264 then 48
  else if x = 272 then 320 else if x = 328 then 32 else 0

/-- Initial memory surrounding the region `[32, 80)` whose bytes beyond the
16-byte interior make the phantom merge splice a large fake chunk at the
unaligned address 250 into the free list. -/
def cexMemAlign : Mem := fun x =>
  if x = 72 then 1000 else if x = 64 then 250 else if x = 258 then 2048 else 0

/-! ### Arithmetic toolkit for the 64-bit masks -/

theorem land_ones_shift (x k n : Nat) :
    x &&& (2 ^ n - 1) * 2 ^ k = x / 2 ^ k % 2 ^ n * 2 ^ k := by
  apply Nat.eq_of_testBit_eq
  intro i
  rw [Nat.testBit_land, ← Nat.shiftLeft_eq, Nat.testBit_shiftLeft, ← Nat.shiftLeft_eq,
    Nat.testBit_shiftLeft, Nat.testBit_two_pow_sub_one, Nat.testBit_mod_two_pow,
    ← Nat.shiftRight_eq_div_pow, Nat.testBit_shiftRight]
  rcases Nat.lt_or_ge i k with hik | hik
  · have hk : ¬ i ≥ k := by omega
    simp [hk]
  · have hre : k + (i - k) = i := by omega
    have hd : decide (i ≥ k) = true := by simp [hik]
    simp only [hd, Bool.true_and, hre]
    exact Bool.and_comm _ _

theorem land_align_eq (x : Nat) : x &&& (W - 16) = x / 16 % 2 ^ 60 * 16 := by
  have h : W - 16 = (2 ^ 60 - 1) * 2 ^ 4 := by norm_num [W]
  have h16 : (16 : Nat) = 2 ^ 4 := by norm_num
  rw [h, h16, land_ones_shift]

theorem land_align_of_lt {x : Nat} (h : x < W) : x &&& (W - 16) = x - x % 16 := by
  rw [land_align_eq]
  have hdiv : x / 16 < 2 ^ 60 := by
    have : x < 2 ^ 60 * 16 := by
      have : (2 : Nat) ^ 60 * 16 = W := by norm_num [W]
      omega
    omega
  rw [Nat.mod_eq_of_lt hdiv]
  omega

theorem maskFlag_eq (x : Nat) : maskFlag x = x / 2 % 2 ^ 63 * 2 := by
  have h : W - 2 = (2 ^ 63 - 1) * 2 ^ 1 := by norm_num [W]
  have h2 : (2 : Nat) = 2 ^ 1 := by norm_num
  rw [maskFlag, h]
  rw [show x &&& (2 ^ 63 - 1) * 2 ^ 1 = x / 2 ^ 1 % 2 ^ 63 * 2 ^ 1 from land_ones_shift x 1 63]
  norm_num

theorem maskFlag_even (x : Nat) : maskFlag x % 2 = 0 := by
  rw [maskFlag_eq]; omega

theorem maskFlag_lt (x : Nat) : maskFlag x < W := by
  rw [maskFlag_eq]
  have h : x / 2 % 2 ^ 63 < 2 ^ 63 := Nat.mod_lt _ (by norm_num)
  have hW : (2 : Nat) ^ 63 * 2 = W := by norm_num [W]
  omega

theorem maskFlag_of_even {x : Nat} (h2 : x % 2 = 0) (hW : x < W) : maskFlag x = x := by
  rw [maskFlag_eq]
  have hdiv : x / 2 < 2 ^ 63 := by
    have : (2 : Nat) ^ 63 * 2 = W := by norm_num [W]
    omega
  rw [Nat.mod_eq_of_lt hdiv]
  omega

theorem lor_one_of_even {x : Nat} (h : x % 2 = 0) : x ||| 1 = x + 1 := by
  apply Nat.eq_of_testBit_eq
  intro i
  rw [Nat.testBit_lor]
  cases i with
  | zero =>
    rw [Nat.testBit_zero, Nat.testBit_zero, Nat.testBit_zero]
    have hx : ¬ x % 2 = 1 := by omega
    have hx1 : (x + 1) % 2 = 1 := by omega
    simp [hx, hx1]
  | succ i =>
    rw [Nat.testBit_succ, Nat.testBit_succ, Nat.testBit_succ]
    have h1 : (1 : Nat) / 2 = 0 := by norm_num
    have h2 : (x + 1) / 2 = x / 2 := by omega
    rw [h1, h2, Nat.zero_testBit, Bool.or_false]

theorem maskFlag_succ_of_even {x : Nat} (h2 : x % 2 = 0) (hW : x < W) :
    maskFlag (x + 1) = x := by
  rw [maskFlag_eq]
  have hq : (x + 1) / 2 = x / 2 := by omega
  have hdiv : x / 2 < 2 ^ 63 := by
    have : (2 : Nat) ^ 63 * 2 = W := by norm_num [W]
    omega
  rw [hq, Nat.mod_eq_of_lt hdiv]
  omega

theorem land_one_mod (x : Nat) : x &&& 1 = x % 2 := Nat.and_one_is_mod x

/-! ### Alignment facts -/

theorem alignUp_mod16 (x : Nat) : alignUp x % 16 = 0 := by
  rw [alignUp, show maxAlignment = 16 from rfl, land_align_eq]
  omega

theorem alignUp_le (x : Nat) : alignUp x ≤ W - 16 := by
  rw [alignUp, show maxAlignment = 16 from rfl, land_align_eq]
  have h : (x + 15) % W / 16 % 2 ^ 60 < 2 ^ 60 := Nat.mod_lt _ (by norm_num)
  have hW : (2 : Nat) ^ 60 * 16 = W := by norm_num [W]
  omega

theorem alignUp_of_no_wrap {x : Nat} (h : x + 15 < W) :
    x ≤ alignUp x ∧ alignUp x < x + 16 := by
  rw [alignUp, show maxAlignment = 16 from rfl, Nat.mod_eq_of_lt h,
    land_align_of_lt (by omega)]
  omega

theorem alignDown_eq_of_lt {x : Nat} (h : x < W) : alignDown x = x - x % 16 := by
  rw [alignDown, show maxAlignment = 16 from rfl, Nat.mod_eq_of_lt h, land_align_of_lt h]

theorem alignDown_mod16 (x : Nat) : alignDown x % 16 = 0 := by
  rw [alignDown, show maxAlignment = 16 from rfl, land_align_eq]
  omega

theorem alignDown_le (x : Nat) : alignDown x ≤ W - 16 := by
  rw [alignDown, show maxAlignment = 16 from rfl, land_align_eq]
  have h : x % W / 16 % 2 ^ 60 < 2 ^ 60 := Nat.mod_lt _ (by norm_num)
  have hW : (2 : Nat) ^ 60 * 16 = W := by norm_num [W]
  omega

theorem neededSize_mod16 (n : Nat) : neededSize n % 16 = 0 := alignUp_mod16 _

theorem neededSize_le (n : Nat) : neededSize n ≤ W - 16 := alignUp_le _

theorem neededSize_even (n : Nat) : neededSize n % 2 = 0 := by
  have h := neededSize_mod16 n
  omega

theorem neededSize_ge {n : Nat} (h : n + 32 ≤ W) : n + 16 ≤ neededSize n := by
  rw [neededSize]
  have hW : (16 : Nat) + 32 ≤ W := by norm_num [W]
  by_cases hn : n ≤ minimumAllocSize
  · rw [if_pos hn]
    have harg : (minimumAllocSize + 2 * sizeTypeBytes) % W = 32 := by
      norm_num [minimumAllocSize, sizeTypeBytes, W]
    rw [harg]
    have := alignUp_of_no_wrap (x := 32) (by norm_num [W])
    have hn16 : n ≤ 16 := hn
    omega
  · rw [if_neg hn]
    have harg : (n + 2 * sizeTypeBytes) % W = n + 16 := by
      have : n + 2 * sizeTypeBytes < W := by
        norm_num [sizeTypeBytes]; omega
      exact Nat.mod_eq_of_lt this
    rw [harg]
    have := alignUp_of_no_wrap (x := n + 16) (by omega)
    omega

/-! ### Memory read/write facts -/

theorem writeWord_same (m : Mem) (a v : Nat) : writeWord m a v a = v := by
  simp [writeWord]

theorem writeWord_ne (m : Mem) (a v : Nat) {x : Nat} (h : x ≠ a) :
    writeWord m a v x = m x := by
  simp [writeWord, h]

theorem setSizeUsed_eq {sz : Nat} (m : Mem) (a : Nat) (h2 : sz % 2 = 0) (hW : sz < W) :
    setSizeUsed m a sz = writeWord (writeWord m (a + 8) (sz + 1)) (a + sz) (sz + 1) := by
  rw [setSizeUsed]
  rw [show InUse = 1 from rfl, show sizeTypeBytes = 8 from rfl, lor_one_of_even h2]
  have hnx : nextHeader (writeWord m (a + 8) (sz + 1)) a = a + sz := by
    rw [nextHeader, hSize, thisSizeWord, show sizeTypeBytes = 8 from rfl, writeWord_same,
      maskFlag_succ_of_even h2 hW]
  rw [hnx]

theorem setSizeFree_eq {sz : Nat} (m : Mem) (a : Nat) (h2 : sz % 2 = 0) (hW : sz < W) :
    setSizeFree m a sz = writeWord (writeWord m (a + 8) sz) (a + sz) sz := by
  rw [setSizeFree]
  have hnx : nextHeader (writeWord m (a + 8) sz) a = a + sz := by
    rw [nextHeader, hSize, thisSizeWord, show sizeTypeBytes = 8 from rfl, writeWord_same,
      maskFlag_of_even h2 hW]
  rw [show sizeTypeBytes = 8 from rfl, hnx]

/-! ### Free-list lemmas -/

theorem firstFit_some {m : Mem} {k a : Nat} :
    ∀ {l : List Nat}, firstFit m k l = some a → a ∈ l ∧ k ≤ hSize m a := by
  intro l
  induction l with
  | nil => intro h; simp [firstFit] at h
  | cons b t ih =>
    intro h
    rw [firstFit] at h
    by_cases hb : k ≤ hSize m b
    · rw [if_pos hb] at h
      cases h
      exact ⟨List.mem_cons_self _ _, hb⟩
    · rw [if_neg hb] at h
      obtain ⟨h1, h2⟩ := ih h
      exact ⟨List.mem_cons_of_mem _ h1, h2⟩

theorem firstFit_eq_none {m : Mem} {k : Nat} :
    ∀ {l : List Nat}, (∀ c ∈ l, hSize m c < k) → firstFit m k l = none := by
  intro l
  induction l with
  | nil => intro _; rfl
  | cons b t ih =>
    intro h
    rw [firstFit, if_neg (by have := h b (List.mem_cons_self _ _); omega)]
    exact ih fun c hc => h c (List.mem_cons_of_mem _ hc)

theorem linkList_perm (m : Mem) (a : Nat) :
    ∀ l : List Nat, (linkList m a l).Perm (a :: l) := by
  intro l
  induction l with
  | nil => simp [linkList]
  | cons b t ih =>
    rw [linkList]
    by_cases hb : hSize m b < hSize m a
    · rw [if_pos hb]
      exact (ih.cons b).trans (List.Perm.swap a b t)
    · rw [if_neg hb]

theorem mem_linkList {m : Mem} {a x : Nat} {l : List Nat} :
    x ∈ linkList m a l ↔ x = a ∨ x ∈ l := by
  rw [(linkList_perm m a l).mem_iff, List.mem_cons]

theorem nodup_linkList {m : Mem} {a : Nat} {l : List Nat}
    (ha : a ∉ l) (hl : l.Nodup) : (linkList m a l).Nodup :=
  ((linkList_perm m a l).nodup_iff).mpr (List.nodup_cons.mpr ⟨ha, hl⟩)

theorem pairwise_linkList {m : Mem} {a : Nat} :
    ∀ {l : List Nat}, l.Pairwise (fun x y => hSize m x ≤ hSize m y) →
      (linkList m a l).Pairwise (fun x y => hSize m x ≤ hSize m y) := by
  intro l
  induction l with
  | nil => intro _; simp [linkList]
  | cons b t ih =>
    intro h
    obtain ⟨hb, ht⟩ := List.pairwise_cons.mp h
    rw [linkList]
    by_cases hba : hSize m b < hSize m a
    · rw [if_pos hba]
      refine List.pairwise_cons.mpr ⟨?_, ih ht⟩
      intro y hy
      rcases mem_linkList.mp hy with rfl | hyt
      · omega
      · exact hb y hyt
    · rw [if_neg hba]
      refine List.pairwise_cons.mpr ⟨?_, h⟩
      intro y hy
      rcases List.mem_cons.mp hy with rfl | hyt
      · omega
      · have := hb y hyt
        omega

theorem linkList_decomp (m : Mem) (a : Nat) :
    ∀ l : List Nat, ∃ l1 l2, l = l1 ++ l2 ∧ linkList m a l = l1 ++ a :: l2 ∧
      (∀ b ∈ l1, hSize m b < hSize m a) ∧
      (∀ c, l2.head? = some c → hSize m a ≤ hSize m c) := by
  intro l
  induction l with
  | nil =>
    exact ⟨[], [], rfl, rfl, by simp, by simp⟩
  | cons b t ih =>
    by_cases hb : hSize m b < hSize m a
    · obtain ⟨l1, l2, he, hl, hsmall, hbig⟩ := ih
      refine ⟨b :: l1, l2, by rw [he]; rfl, ?_, ?_, hbig⟩
      · rw [linkList, if_pos hb, hl]
        rfl
      · intro c hc
        rcases List.mem_cons.mp hc with rfl | hc1
        · exact hb
        · exact hsmall c hc1
    · refine ⟨[], b :: t, rfl, ?_, by simp, ?_⟩
      · rw [linkList, if_neg hb]
        rfl
      · intro c hc
        rw [List.head?_cons] at hc
        cases hc
        omega

/-! ### Closed forms of the `allocate` branches -/

theorem hSize_even (m : Mem) (a : Nat) : hSize m a % 2 = 0 := maskFlag_even _

theorem hSize_lt (m : Mem) (a : Nat) : hSize m a < W := maskFlag_lt _

theorem W_pos : 16 ≤ W := by norm_num [W]

theorem allocate_split_eq {st : AllocState} {n a : Nat}
    (hf : firstFit st.mem (neededSize n) st.freeList = some a)
    (hk : 16 ≤ neededSize n)
    (hrem : headerBytes ≤ hSize st.mem a - neededSize n) :
    allocate st n = (some (a + payloadOffset),
      ⟨splitMem st.mem a (neededSize n) (hSize st.mem a),
        linkList (splitMem st.mem a (neededSize n) (hSize st.mem a))
          (a + neededSize n) (st.freeList.erase a)⟩) := by
  have hke := neededSize_even n
  have hkW : neededSize n < W := by
    have := neededSize_le n
    have := W_pos
    omega
  have hsze := hSize_even st.mem a
  have hszW := hSize_lt st.mem a
  have hksz := (firstFit_some hf).2
  have hremE : (hSize st.mem a - neededSize n) % 2 = 0 := by omega
  have hremW : hSize st.mem a - neededSize n < W := by omega
  have h1 : setSizeUsed st.mem a (neededSize n) =
      writeWord (writeWord st.mem (a + 8) (neededSize n + 1)) (a + neededSize n)
        (neededSize n + 1) := setSizeUsed_eq _ _ hke hkW
  have hnxt : nextHeader (setSizeUsed st.mem a (neededSize n)) a = a + neededSize n := by
    rw [h1, nextHeader, hSize, thisSizeWord, show sizeTypeBytes = 8 from rfl,
      writeWord_ne _ _ _ (by omega), writeWord_same, maskFlag_succ_of_even hke hkW]
  have h2 : setSizeFree (setSizeUsed st.mem a (neededSize n)) (a + neededSize n)
      (hSize st.mem a - neededSize n) = splitMem st.mem a (neededSize n) (hSize st.mem a) := by
    rw [setSizeFree_eq _ _ hremE hremW, h1, splitMem]
    have he : a + neededSize n + (hSize st.mem a - neededSize n) = a + hSize st.mem a := by
      omega
    rw [he]
  simp only [allocate, hf]
  rw [if_pos hrem, hnxt, h2]

theorem allocate_nosplit_eq {st : AllocState} {n a : Nat}
    (hf : firstFit st.mem (neededSize n) st.freeList = some a)
    (hrem : hSize st.mem a - neededSize n < headerBytes) :
    allocate st n = (some (a + payloadOffset),
      ⟨usedMem st.mem a (hSize st.mem a), st.freeList.erase a⟩) := by
  simp only [allocate, hf]
  rw [if_neg (by omega)]
  rw [show setSizeUsed st.mem a (hSize st.mem a) = usedMem st.mem a (hSize st.mem a) from
    setSizeUsed_eq _ _ (hSize_even _ _) (hSize_lt _ _)]

theorem hSize_splitMem_self {m : Mem} {a k sz : Nat}
    (hk : 16 ≤ k) (hk2 : k % 2 = 0) (hkW : k < W) (hsz : k + 32 ≤ sz) :
    hSize (splitMem m a k sz) a = k := by
  rw [hSize, thisSizeWord, splitMem, show sizeTypeBytes = 8 from rfl,
    writeWord_ne _ _ _ (by omega), writeWord_ne _ _ _ (by omega),
    writeWord_ne _ _ _ (by omega), writeWord_same, maskFlag_succ_of_even hk2 hkW]

theorem hSize_splitMem_next {m : Mem} {a k sz : Nat}
    (hsz : k + 32 ≤ sz) (hremE : (sz - k) % 2 = 0) (hremW : sz - k < W) :
    hSize (splitMem m a k sz) (a + k) = sz - k := by
  rw [hSize, thisSizeWord, splitMem, show sizeTypeBytes = 8 from rfl,
    writeWord_ne _ _ _ (by omega), writeWord_same, maskFlag_of_even hremE hremW]

theorem hSize_usedMem_self {m : Mem} {a sz : Nat}
    (h16 : 16 ≤ sz) (h2 : sz % 2 = 0) (hW : sz < W) :
    hSize (usedMem m a sz) a = sz := by
  rw [hSize, thisSizeWord, usedMem, show sizeTypeBytes = 8 from rfl,
    writeWord_ne _ _ _ (by omega), writeWord_same, maskFlag_succ_of_even h2 hW]

/-! ### C10, C7, C2 -/

/-- C10: the needed chunk size in `allocate` is computed in 64-bit unsigned
arithmetic (clamp to the minimum allocation size, add `2*sizeof(size_type)`
of overhead modulo 2^64, round up to the maximum alignment modulo 2^64), so
there is a request within `2*sizeof(size_type) + max_alignment` of the
largest representable value whose computed needed size is smaller than the
request itself. -/
theorem neededSize_wraps_on_overflow :
    ∃ n : Nat, (W - 1) - n ≤ 2 * sizeTypeBytes + maxAlignment ∧ neededSize n < n := by
  refine ⟨W - 1, by norm_num [sizeTypeBytes, maxAlignment], ?_⟩
  have h : neededSize (W - 1) = 16 := by decide
  rw [h]
  norm_num [W]

/-- C7: when the constructor's aligned `end` does not exceed the aligned
`begin`, the allocator is initialised with an empty free list and every
subsequent `allocate` of any size returns null, leaving the state unchanged
(the model is total, so no crash is possible). -/
theorem construct_degenerate (m : Mem) (b e : Nat)
    (h : endAligned e ≤ beginAligned b) :
    construct m b e = ⟨m, []⟩ ∧
      ∀ n, allocate (construct m b e) n = (none, construct m b e) := by
  have hc : construct m b e = ⟨m, []⟩ := by
    rw [construct]
    simp [h]
  refine ⟨hc, fun n => ?_⟩
  rw [hc]
  rfl

theorem construct_degenerate_witness :
    construct (fun _ => 0) 100 50 = ⟨(fun _ => 0), []⟩ ∧
      allocate (construct (fun _ => 0) 100 50) 7 = (none, construct (fun _ => 0) 100 50) := by
  have h := construct_degenerate (fun _ => 0) 100 50 (by decide)
  exact ⟨h.1, h.2 7⟩

/-- C2: if no chunk of the free list is at least the needed chunk size
computed from the request, `allocate` returns null and the allocator state
(memory and free list) is exactly unchanged; the model is total, so the
call neither throws nor aborts. -/
theorem allocate_exhausted (st : AllocState) (n : Nat)
    (h : ∀ c ∈ st.freeList, hSize st.mem c < neededSize n) :
    allocate st n = (none, st) := by
  simp only [allocate, firstFit_eq_none h]

theorem allocate_exhausted_witness :
    (∀ c ∈ (construct (fun _ => 0) 0 128).freeList,
        hSize (construct (fun _ => 0) 0 128).mem c < neededSize 200) ∧
      allocate (construct (fun _ => 0) 0 128) 200 = (none, construct (fun _ => 0) 0 128) :=
  ⟨by decide, allocate_exhausted _ 200 (by decide)⟩

/-! ### C1 and C8 -/

theorem thisWord_splitMem_self {m : Mem} {a k sz : Nat}
    (hk : 16 ≤ k) (hsz : k + 32 ≤ sz) :
    thisSizeWord (splitMem m a k sz) a = k + 1 := by
  rw [thisSizeWord, splitMem, show sizeTypeBytes = 8 from rfl,
    writeWord_ne _ _ _ (by omega), writeWord_ne _ _ _ (by omega),
    writeWord_ne _ _ _ (by omega), writeWord_same]

theorem thisWord_splitMem_next {m : Mem} {a k sz : Nat}
    (hsz : k + 32 ≤ sz) :
    thisSizeWord (splitMem m a k sz) (a + k) = sz - k := by
  rw [thisSizeWord, splitMem, show sizeTypeBytes = 8 from rfl,
    writeWord_ne _ _ _ (by omega), writeWord_same]

theorem thisWord_usedMem_self {m : Mem} {a sz : Nat} (h16 : 16 ≤ sz) :
    thisSizeWord (usedMem m a sz) a = sz + 1 := by
  rw [thisSizeWord, usedMem, show sizeTypeBytes = 8 from rfl,
    writeWord_ne _ _ _ (by omega), writeWord_same]

theorem neededSize_ge32 {n : Nat} (h : n + 32 ≤ W) : 32 ≤ neededSize n := by
  by_cases hn : 16 ≤ n
  · have := neededSize_ge h
    omega
  · have hcl : neededSize n = 32 := by
      rw [neededSize, if_pos (by rw [minimumAllocSize, sizeTypeBytes]; omega)]
      decide
    omega

/-- C1 fails as stated: on a 2^64-bits `size_t` the needed-size computation
wraps; requesting `2^64 - 1` bytes from a fresh 96-byte chunk succeeds
(needed size 16) and hands back a chunk with zero usable bytes, far fewer
than requested. -/
theorem allocate_overflow_usable_counterexample :
    (allocate (construct (fun _ => 0) 0 128) (W - 1)).1 = some 16 ∧
      hSize (allocate (construct (fun _ => 0) 0 128) (W - 1)).2.mem
          (16 - payloadOffset) = 16 ∧
      ¬ (W - 1) + payloadOffset ≤
        hSize (allocate (construct (fun _ => 0) 0 128) (W - 1)).2.mem
          (16 - payloadOffset) := by
  refine ⟨by decide, by decide, by decide⟩

/-- C1 amended: for every request `n` whose needed-size computation does not
overflow (`n + 32 ≤ 2^64`), whenever `allocate` returns a non-null pointer
`p` on any allocator state, the chunk at `p` extends at least `n` bytes past
the payload: its size is at least `n` plus the payload offset, so the caller
may use `n` consecutive bytes between `p` and the next chunk header. -/
theorem allocate_usable_bytes {st : AllocState} {n p : Nat} {st2 : AllocState}
    (hn : n + 32 ≤ W) (h : allocate st n = (some p, st2)) :
    payloadOffset ≤ p ∧ n + payloadOffset ≤ hSize st2.mem (p - payloadOffset) := by
  cases hf : firstFit st.mem (neededSize n) st.freeList with
  | none =>
    rw [show allocate st n = (none, st) from by simp only [allocate, hf]] at h
    exact absurd (congrArg Prod.fst h) (by simp)
  | some a =>
    have hk16 := neededSize_ge hn
    have hk32 := neededSize_ge32 hn
    have hksz := (firstFit_some hf).2
    have hke := neededSize_even n
    have hkW : neededSize n < W := by
      have := neededSize_le n
      have := W_pos
      omega
    have hsze := hSize_even st.mem a
    have hszW := hSize_lt st.mem a
    have hhb : headerBytes = 32 := rfl
    have hpo : payloadOffset = 16 := rfl
    by_cases hrem : headerBytes ≤ hSize st.mem a - neededSize n
    · rw [allocate_split_eq hf (by omega) hrem] at h
      injection h with h1 h2
      injection h1 with h1
      rw [← h2, ← h1]
      have hsub : a + payloadOffset - payloadOffset = a := by omega
      rw [hsub]
      rw [hSize_splitMem_self (by omega) hke hkW (by omega)]
      omega
    · rw [allocate_nosplit_eq hf (by omega)] at h
      injection h with h1 h2
      injection h1 with h1
      rw [← h2, ← h1]
      have hsub : a + payloadOffset - payloadOffset = a := by omega
      rw [hsub]
      rw [hSize_usedMem_self (by omega) hsze hszW]
      omega

theorem allocate_usable_bytes_witness :
    (40 : Nat) + 32 ≤ W ∧ payloadOffset ≤ 16 ∧
      40 + payloadOffset ≤
        hSize ((allocate (construct (fun _ => 0) 0 128) 40).2).mem (16 - payloadOffset) := by
  have h1 : (allocate (construct (fun _ => 0) 0 128) 40).1 = some 16 := by decide
  have h : allocate (construct (fun _ => 0) 0 128) 40 =
      (some 16, (allocate (construct (fun _ => 0) 0 128) 40).2) := by
    rw [← h1]
  have h2 := allocate_usable_bytes (by norm_num [W]) h
  exact ⟨by norm_num [W], h2.1, h2.2⟩

/-- C8 fails as stated for the wrapped request `2^64 - 16` (needed size 0):
the split branch is taken (the leftover 96 ≥ 32), yet afterwards the found
chunk is not marked used at the needed size — its header is even (free) and
it still sits in the free list, because the remainder header coincides with
the front header and overwrites it. -/
theorem allocate_split_poison_counterexample :
    neededSize (W - 16) = 0 ∧
      headerBytes ≤ hSize (construct (fun _ => 0) 0 128).mem 0 - neededSize (W - 16) ∧
      (allocate (construct (fun _ => 0) 0 128) (W - 16)).1 = some 16 ∧
      (allocate (construct (fun _ => 0) 0 128) (W - 16)).2.freeList = [0] ∧
      thisSizeWord (allocate (construct (fun _ => 0) 0 128) (W - 16)).2.mem 0 % 2 = 0 := by
  refine ⟨by decide, by decide, by decide, by decide, by decide⟩

/-- C8 amended: when `allocate` finds a matching free chunk and the computed
needed size is nonzero (every request except the wrapping ones near
2^64), it unlinks the chunk; if the leftover is at least one minimum chunk
(`sizeof(Header)` bytes) it splits — the front is marked used at the needed
size, a new free chunk header of the leftover size is created right after
it and inserted into the free list; otherwise no split happens and the
whole chunk is marked used at its full original size. -/
theorem allocate_found_behaviour {st : AllocState} {n a : Nat}
    (hf : firstFit st.mem (neededSize n) st.freeList = some a)
    (hk : 16 ≤ neededSize n) (hnd : st.freeList.Nodup) :
    (allocate st n).1 = some (a + payloadOffset) ∧
      a ∉ (allocate st n).2.freeList ∧
      (headerBytes ≤ hSize st.mem a - neededSize n →
        hSize (allocate st n).2.mem a = neededSize n ∧
          thisSizeWord (allocate st n).2.mem a % 2 = 1 ∧
          hSize (allocate st n).2.mem (a + neededSize n) =
            hSize st.mem a - neededSize n ∧
          thisSizeWord (allocate st n).2.mem (a + neededSize n) % 2 = 0 ∧
          (a + neededSize n) ∈ (allocate st n).2.freeList) ∧
      (hSize st.mem a - neededSize n < headerBytes →
        hSize (allocate st n).2.mem a = hSize st.mem a ∧
          thisSizeWord (allocate st n).2.mem a % 2 = 1 ∧
          (allocate st n).2.freeList = st.freeList.erase a) := by
  have hke := neededSize_even n
  have hkW : neededSize n < W := by
    have := neededSize_le n
    have := W_pos
    omega
  have hksz := (firstFit_some hf).2
  have hsze := hSize_even st.mem a
  have hszW := hSize_lt st.mem a
  have hhb : headerBytes = 32 := rfl
  have hremE : (hSize st.mem a - neededSize n) % 2 = 0 := by omega
  have hremW : hSize st.mem a - neededSize n < W := by omega
  by_cases hrem : headerBytes ≤ hSize st.mem a - neededSize n
  · rw [allocate_split_eq hf hk hrem]
    refine ⟨rfl, ?_, ?_, ?_⟩
    · intro hmem
      rcases mem_linkList.mp hmem with he | hmem2
      · omega
      · exact absurd rfl ((hnd.mem_erase_iff.mp hmem2).1)
    · intro _
      refine ⟨hSize_splitMem_self hk hke hkW (by omega), ?_,
        hSize_splitMem_next (by omega) hremE hremW, ?_, ?_⟩
      · rw [thisWord_splitMem_self hk (by omega)]
        omega
      · rw [thisWord_splitMem_next (by omega)]
        omega
      · exact mem_linkList.mpr (Or.inl rfl)
    · intro hcon
      omega
  · rw [allocate_nosplit_eq hf (by omega)]
    refine ⟨rfl, ?_, ?_, ?_⟩
    · intro hmem
      exact absurd rfl ((hnd.mem_erase_iff.mp hmem).1)
    · intro hcon
      omega
    · intro _
      refine ⟨hSize_usedMem_self (by omega) hsze hszW, ?_, rfl⟩
      rw [thisWord_usedMem_self (by omega)]
      omega

theorem allocate_found_behaviour_witness :
    firstFit (construct (fun _ => 0) 0 128).mem (neededSize 32)
        (construct (fun _ => 0) 0 128).freeList = some 0 ∧
      16 ≤ neededSize 32 ∧
      (allocate (construct (fun _ => 0) 0 128) 32).1 = some (0 + payloadOffset) ∧
      0 ∉ (allocate (construct (fun _ => 0) 0 128) 32).2.freeList := by
  have h := @allocate_found_behaviour (construct (fun _ => 0) 0 128) 32
    0 (by decide) (by decide) (by decide)
  exact ⟨by decide, by decide, h.1, h.2.1⟩

/-! ### Further closed forms: zero-needed split, deallocate cases, fresh state -/

theorem allocate_fst_of_found {st : AllocState} {n a : Nat}
    (hf : firstFit st.mem (neededSize n) st.freeList = some a) :
    (allocate st n).1 = some (a + payloadOffset) := by
  simp only [allocate, hf]
  split <;> rfl

theorem allocate_split_zero_eq {st : AllocState} {n a : Nat}
    (hf : firstFit st.mem (neededSize n) st.freeList = some a)
    (hk0 : neededSize n = 0)
    (hrem : headerBytes ≤ hSize st.mem a) :
    allocate st n = (some (a + payloadOffset),
      ⟨writeWord (writeWord (writeWord (writeWord st.mem (a + 8) 1) a 1)
          (a + 8) (hSize st.mem a)) (a + hSize st.mem a) (hSize st.mem a),
        linkList (writeWord (writeWord (writeWord (writeWord st.mem (a + 8) 1) a 1)
            (a + 8) (hSize st.mem a)) (a + hSize st.mem a) (hSize st.mem a))
          a (st.freeList.erase a)⟩) := by
  have hsze := hSize_even st.mem a
  have hszW := hSize_lt st.mem a
  have hone : (0 : Nat) ||| 1 = 1 := by decide
  have hmf1 : maskFlag 1 = 0 := by decide
  have hm1 : setSizeUsed st.mem a 0 =
      writeWord (writeWord st.mem (a + 8) 1) a 1 := by
    rw [setSizeUsed, show sizeTypeBytes = 8 from rfl, show InUse = 1 from rfl, hone]
    have hn : nextHeader (writeWord st.mem (a + 8) 1) a = a := by
      rw [nextHeader, hSize, thisSizeWord, show sizeTypeBytes = 8 from rfl, writeWord_same,
        hmf1]
      omega
    rw [hn]
  have hnxt : nextHeader (setSizeUsed st.mem a 0) a = a := by
    rw [hm1, nextHeader, hSize, thisSizeWord, show sizeTypeBytes = 8 from rfl,
      writeWord_ne _ _ _ (by omega), writeWord_same, hmf1]
    omega
  have hm2 : setSizeFree (setSizeUsed st.mem a 0) a (hSize st.mem a) =
      writeWord (writeWord (writeWord (writeWord st.mem (a + 8) 1) a 1)
        (a + 8) (hSize st.mem a)) (a + hSize st.mem a) (hSize st.mem a) := by
    rw [setSizeFree_eq _ _ hsze hszW, hm1]
  have hf0 : firstFit st.mem 0 st.freeList = some a := by
    rw [← hk0]
    exact hf
  simp only [allocate, hk0, hf0]
  rw [if_pos (by rw [Nat.sub_zero]; exact hrem), hnxt, Nat.sub_zero, hm2]

theorem nextIfFree_of_odd {m : Mem} {a : Nat}
    (h : thisSizeWord m (nextHeader m a) % 2 = 1) : nextIfFree m a = none := by
  rw [nextIfFree]
  simp only [show InUse = 1 from rfl, land_one_mod]
  rw [if_pos (by omega)]

theorem nextIfFree_of_even {m : Mem} {a : Nat}
    (h : thisSizeWord m (nextHeader m a) % 2 = 0) :
    nextIfFree m a = some (nextHeader m a) := by
  rw [nextIfFree]
  simp only [show InUse = 1 from rfl, land_one_mod]
  rw [if_neg (by omega)]

theorem prevIfFree_of_odd {m : Mem} {a : Nat}
    (h : prevSizeWord m a % 2 = 1) : prevIfFree m a = none := by
  rw [prevIfFree]
  simp only [show InUse = 1 from rfl, land_one_mod]
  rw [if_pos (by omega)]

theorem prevIfFree_of_even {m : Mem} {a : Nat}
    (h : prevSizeWord m a % 2 = 0) :
    prevIfFree m a = some (a - previousSize m a) := by
  rw [prevIfFree]
  simp only [show InUse = 1 from rfl, land_one_mod]
  rw [if_neg (by omega)]

theorem deallocate_none_none {st : AllocState} {p : Nat}
    (hnext : nextIfFree st.mem (p - payloadOffset) = none)
    (hprev : prevIfFree st.mem (p - payloadOffset) = none) :
    deallocate st p =
      ⟨setSizeFree st.mem (p - payloadOffset) (hSize st.mem (p - payloadOffset)),
        linkList (setSizeFree st.mem (p - payloadOffset) (hSize st.mem (p - payloadOffset)))
          (p - payloadOffset) st.freeList⟩ := by
  simp only [deallocate, hnext, hprev]

theorem deallocate_next_free {st : AllocState} {p nxt : Nat}
    (hnext : nextIfFree st.mem (p - payloadOffset) = some nxt)
    (hprev : prevIfFree st.mem (p - payloadOffset) = none) :
    deallocate st p =
      ⟨setSizeFree st.mem (p - payloadOffset)
          ((hSize st.mem (p - payloadOffset) + hSize st.mem nxt) % W),
        linkList (setSizeFree st.mem (p - payloadOffset)
            ((hSize st.mem (p - payloadOffset) + hSize st.mem nxt) % W))
          (p - payloadOffset) (st.freeList.erase nxt)⟩ := by
  simp only [deallocate, hnext, hprev]

theorem deallocate_prev_free {st : AllocState} {p prv : Nat}
    (hnext : nextIfFree st.mem (p - payloadOffset) = none)
    (hprev : prevIfFree st.mem (p - payloadOffset) = some prv) :
    deallocate st p =
      ⟨setSizeFree st.mem prv
          ((hSize st.mem (p - payloadOffset) + hSize st.mem prv) % W),
        linkList (setSizeFree st.mem prv
            ((hSize st.mem (p - payloadOffset) + hSize st.mem prv) % W))
          prv (st.freeList.erase prv)⟩ := by
  simp only [deallocate, hnext, hprev]

theorem deallocate_both_free {st : AllocState} {p nxt prv : Nat}
    (hnext : nextIfFree st.mem (p - payloadOffset) = some nxt)
    (hprev : prevIfFree st.mem (p - payloadOffset) = some prv) :
    deallocate st p =
      ⟨setSizeFree st.mem prv
          (((hSize st.mem (p - payloadOffset) + hSize st.mem nxt) % W + hSize st.mem prv) % W),
        linkList (setSizeFree st.mem prv
            (((hSize st.mem (p - payloadOffset) + hSize st.mem nxt) % W + hSize st.mem prv) % W))
          prv ((st.freeList.erase nxt).erase prv)⟩ := by
  simp only [deallocate, hnext, hprev]

theorem thisWord_freshMem {m : Mem} {h T : Nat} (hT0 : T ≠ 0) (hT8 : T ≠ 8) :
    thisSizeWord (freshMem m h T) h = T := by
  rw [thisSizeWord, freshMem, show sizeTypeBytes = 8 from rfl,
    writeWord_ne _ _ _ (by omega), writeWord_ne _ _ _ (by omega),
    writeWord_ne _ _ _ (by omega), writeWord_same]

theorem prevWord_freshMem {m : Mem} {h T : Nat} :
    prevSizeWord (freshMem m h T) h = 1 := by
  rw [prevSizeWord, freshMem, writeWord_ne _ _ _ (by omega), writeWord_same]

theorem sentinelThis_freshMem {m : Mem} {h T : Nat} :
    thisSizeWord (freshMem m h T) (h + T) = 1 := by
  rw [thisSizeWord, freshMem, show sizeTypeBytes = 8 from rfl, writeWord_same]

theorem sentinelPrev_freshMem {m : Mem} {h T : Nat} (hT0 : T ≠ 0) :
    prevSizeWord (freshMem m h T) (h + T) = T := by
  rw [prevSizeWord, freshMem, writeWord_ne _ _ _ (by omega),
    writeWord_ne _ _ _ (by omega), writeWord_same]

theorem construct_nondegen {m : Mem} {b e : Nat}
    (hb : b + 31 < W) (hnd : beginAligned b < endAligned e) :
    construct m b e =
      ⟨freshMem m (beginAligned b - 16) (endAligned e - beginAligned b),
        [beginAligned b - 16]⟩ ∧
      16 ≤ beginAligned b ∧ beginAligned b % 16 = 0 ∧ endAligned e % 16 = 0 ∧
      endAligned e ≤ W - 16 := by
  have hWp := W_pos
  have hs2 : 2 * sizeTypeBytes = 16 := rfl
  have hg0 : (b + 2 * sizeTypeBytes) % W = b + 16 := by
    rw [hs2]
    exact Nat.mod_eq_of_lt (by omega)
  have hgw := alignUp_of_no_wrap (x := b + 16) (by omega)
  have hgb : b + 16 ≤ beginAligned b ∧ beginAligned b < b + 32 := by
    rw [beginAligned, hg0]
    omega
  have hg16 : 16 ≤ beginAligned b := by omega
  have hgm : beginAligned b % 16 = 0 := by
    rw [beginAligned]
    exact alignUp_mod16 _
  have hdm : endAligned e % 16 = 0 := by
    rw [endAligned]
    exact alignDown_mod16 _
  have hdle : endAligned e ≤ W - 16 := by
    rw [endAligned]
    exact alignDown_le _
  have hT16 : 16 ≤ endAligned e - beginAligned b := by omega
  have hTm : (endAligned e - beginAligned b) % 16 = 0 := by omega
  have hTW : endAligned e - beginAligned b < W := by omega
  refine ⟨?_, hg16, hgm, hdm, hdle⟩
  rw [construct]
  rw [if_neg (by omega)]
  have hsf : setSizeFree m (beginAligned b - 16)
      (endAligned e - beginAligned b) =
      writeWord (writeWord m (beginAligned b - 16 + 8) (endAligned e - beginAligned b))
        (beginAligned b - 16 + (endAligned e - beginAligned b))
        (endAligned e - beginAligned b) := by
    rw [setSizeFree_eq _ _ (by omega) hTW]
  have hnxt : nextHeader
      (writeWord (writeWord (writeWord m (beginAligned b - 16 + 8)
          (endAligned e - beginAligned b))
        (beginAligned b - 16 + (endAligned e - beginAligned b))
        (endAligned e - beginAligned b)) (beginAligned b - 16) 1)
      (beginAligned b - 16) = beginAligned b - 16 + (endAligned e - beginAligned b) := by
    rw [nextHeader, hSize, thisSizeWord, show sizeTypeBytes = 8 from rfl,
      writeWord_ne _ _ _ (by omega), writeWord_ne _ _ _ (by omega), writeWord_same,
      maskFlag_of_even (by omega) hTW]
  simp only [show payloadOffset = 16 from rfl, show InUse = 1 from rfl,
    show sizeTypeBytes = 8 from rfl, hsf, hnxt]
  rfl

/-! ### C3: round trip on a fresh allocator -/

theorem roundtrip_core {M : Mem} {h T S p : Nat} {st1 : AllocState}
    (hT16 : 16 ≤ T) (hTm : T % 16 = 0) (hTW : T < W)
    (hw1 : thisSizeWord M h = T) (hw2 : prevSizeWord M h = 1)
    (hw3 : thisSizeWord M (h + T) = 1)
    (halloc : allocate ⟨M, [h]⟩ S = (some p, st1)) :
    (allocate (deallocate st1 p) S).1 = some p := by
  have hWp := W_pos
  have hsze : hSize M h = T := by
    rw [hSize, hw1, maskFlag_of_even (by omega) hTW]
  have hke := neededSize_mod16 S
  have hkW : neededSize S < W := by
    have := neededSize_le S
    omega
  have hhb : headerBytes = 32 := rfl
  have hpo : payloadOffset = 16 := rfl
  have hkT : neededSize S ≤ T := by
    by_contra hgt
    have hnone : firstFit M (neededSize S) [h] = none := by
      rw [firstFit, if_neg (by rw [hsze]; omega)]
      rfl
    have hres : allocate ⟨M, [h]⟩ S = (none, ⟨M, [h]⟩) := by
      simp only [allocate, hnone]
    rw [hres] at halloc
    exact absurd (congrArg Prod.fst halloc) (by simp)
  have hfit : firstFit M (neededSize S) [h] = some h := by
    rw [firstFit, if_pos (by rw [hsze]; omega)]
  have herase : [h].erase h = [] := List.erase_cons_head h []
  by_cases hsplit : headerBytes ≤ T - neededSize S
  · rcases (show neededSize S = 0 ∨ 16 ≤ neededSize S by omega) with hk0 | hk16
    · -- wrapped request: the split at needed size 0 rewrites the same chunk
      have hstep := @allocate_split_zero_eq ⟨M, [h]⟩ S h
        hfit hk0 (by dsimp only; rw [hsze]; omega)
      dsimp only at hstep
      rw [hsze, herase] at hstep
      rw [hstep] at halloc
      injection halloc with h1 h2
      injection h1 with h1
      rw [← h1, ← h2]
      have hMZ8 : ∀ v1 v2,
          writeWord (writeWord (writeWord (writeWord M (h + 8) v1) h v2) (h + 8) T)
            (h + T) T (h + 8) = T := by
        intro v1 v2
        rw [writeWord_ne _ _ _ (by omega), writeWord_same]
      have hszMZ : hSize (writeWord (writeWord (writeWord (writeWord M (h + 8) 1) h 1)
          (h + 8) T) (h + T) T) h = T := by
        rw [hSize, thisSizeWord, show sizeTypeBytes = 8 from rfl, hMZ8,
          maskFlag_of_even (by omega) hTW]
      have hd := @deallocate_none_none
        ⟨writeWord (writeWord (writeWord (writeWord M (h + 8) 1) h 1)
          (h + 8) T) (h + T) T, linkList (writeWord (writeWord (writeWord
            (writeWord M (h + 8) 1) h 1) (h + 8) T) (h + T) T) h []⟩
        (h + payloadOffset) ?_ ?_
      · rw [hd]
        dsimp only
        have hself : h + payloadOffset - payloadOffset = h := by omega
        rw [hself, hszMZ]
        rw [setSizeFree_eq _ _ (by omega) hTW]
        apply allocate_fst_of_found
        dsimp only
        have hr : thisSizeWord (writeWord (writeWord (writeWord (writeWord (writeWord
            (writeWord M (h + 8) 1) h 1) (h + 8) T) (h + T) T) (h + 8) T) (h + T) T) h
            = T := by
          rw [thisSizeWord, show sizeTypeBytes = 8 from rfl,
            writeWord_ne _ _ _ (by omega), writeWord_same]
        have hl : linkList (writeWord (writeWord (writeWord (writeWord (writeWord
            (writeWord M (h + 8) 1) h 1) (h + 8) T) (h + T) T) (h + 8) T) (h + T) T) h
            (linkList (writeWord (writeWord (writeWord (writeWord M (h + 8) 1) h 1)
              (h + 8) T) (h + T) T) h []) =
            h :: h :: [] := by
          rw [linkList, linkList, if_neg (by omega)]
        rw [hl, firstFit, if_pos (by rw [hSize, hr, maskFlag_of_even (by omega) hTW]; omega)]
      · dsimp only
        have hself : h + payloadOffset - payloadOffset = h := by omega
        rw [hself]
        apply nextIfFree_of_odd
        rw [nextHeader, hszMZ, thisSizeWord, show sizeTypeBytes = 8 from rfl,
          writeWord_ne _ _ _ (by omega), writeWord_ne _ _ _ (by omega),
          writeWord_ne _ _ _ (by omega), writeWord_ne _ _ _ (by omega)]
        rw [show M (h + T + 8) = 1 from hw3]
      · dsimp only
        have hself : h + payloadOffset - payloadOffset = h := by omega
        rw [hself]
        apply prevIfFree_of_odd
        rw [prevSizeWord, writeWord_ne _ _ _ (by omega), writeWord_ne _ _ _ (by omega),
          writeWord_same]
    · -- genuine split: the remainder is reabsorbed by the deallocation
      have hstep := @allocate_split_eq ⟨M, [h]⟩ S h
        hfit hk16 (by dsimp only; rw [hsze]; omega)
      dsimp only at hstep
      rw [hsze, herase] at hstep
      rw [hstep] at halloc
      injection halloc with h1 h2
      injection h1 with h1
      rw [← h1, ← h2]
      have hkT32 : neededSize S + 32 ≤ T := by omega
      have hszMS : hSize (splitMem M h (neededSize S) T) h = neededSize S :=
        hSize_splitMem_self hk16 (by omega) hkW (by omega)
      have hnx : nextHeader (splitMem M h (neededSize S) T) h = h + neededSize S := by
        rw [nextHeader, hszMS]
      have hd := @deallocate_next_free
        ⟨splitMem M h (neededSize S) T,
          linkList (splitMem M h (neededSize S) T) (h + neededSize S) []⟩
        (h + payloadOffset) (h + neededSize S) ?_ ?_
      · rw [hd]
        dsimp only
        have hself : h + payloadOffset - payloadOffset = h := by omega
        rw [hself, hszMS]
        have hsznx : hSize (splitMem M h (neededSize S) T) (h + neededSize S) =
            T - neededSize S :=
          hSize_splitMem_next (by omega) (by omega) (by omega)
        rw [hsznx]
        have hsum : (neededSize S + (T - neededSize S)) % W = T := by
          rw [show neededSize S + (T - neededSize S) = T by omega]
          exact Nat.mod_eq_of_lt hTW
        rw [hsum]
        rw [setSizeFree_eq _ _ (by omega) hTW]
        apply allocate_fst_of_found
        dsimp only
        have hr : thisSizeWord (writeWord (writeWord (splitMem M h (neededSize S) T)
            (h + 8) T) (h + T) T) h = T := by
          rw [thisSizeWord, show sizeTypeBytes = 8 from rfl,
            writeWord_ne _ _ _ (by omega), writeWord_same]
        have hl : (linkList (splitMem M h (neededSize S) T) (h + neededSize S)
            []).erase (h + neededSize S) = [] := by
          rw [linkList]
          exact List.erase_cons_head _ _
        rw [hl, linkList, firstFit,
          if_pos (by rw [hSize, hr, maskFlag_of_even (by omega) hTW]; omega)]
      · dsimp only
        have hself : h + payloadOffset - payloadOffset = h := by omega
        rw [hself]
        have heven : thisSizeWord (splitMem M h (neededSize S) T)
            (nextHeader (splitMem M h (neededSize S) T) h) % 2 = 0 := by
          rw [hnx, thisWord_splitMem_next (by omega)]
          omega
        rw [nextIfFree_of_even heven, hnx]
      · dsimp only
        have hself : h + payloadOffset - payloadOffset = h := by omega
        rw [hself]
        apply prevIfFree_of_odd
        rw [prevSizeWord, splitMem, writeWord_ne _ _ _ (by omega),
          writeWord_ne _ _ _ (by omega), writeWord_ne _ _ _ (by omega),
          writeWord_ne _ _ _ (by omega)]
        rw [show M h = 1 from hw2]
    -- end split cases
  · -- no split: the whole chunk is marked used and freed back intact
    have hstep := @allocate_nosplit_eq ⟨M, [h]⟩ S h
      hfit (by dsimp only; rw [hsze]; omega)
    dsimp only at hstep
    rw [hsze, herase] at hstep
    rw [hstep] at halloc
    injection halloc with h1 h2
    injection h1 with h1
    rw [← h1, ← h2]
    have hszMU : hSize (usedMem M h T) h = T := hSize_usedMem_self (by omega) (by omega) hTW
    have hd := @deallocate_none_none
      ⟨usedMem M h T, []⟩ (h + payloadOffset) ?_ ?_
    · rw [hd]
      dsimp only
      have hself : h + payloadOffset - payloadOffset = h := by omega
      rw [hself, hszMU]
      rw [setSizeFree_eq _ _ (by omega) hTW]
      apply allocate_fst_of_found
      dsimp only
      have hr : thisSizeWord (writeWord (writeWord (usedMem M h T) (h + 8) T)
          (h + T) T) h = T := by
        rw [thisSizeWord, show sizeTypeBytes = 8 from rfl,
          writeWord_ne _ _ _ (by omega), writeWord_same]
      rw [linkList, firstFit,
        if_pos (by rw [hSize, hr, maskFlag_of_even (by omega) hTW]; omega)]
    · dsimp only
      have hself : h + payloadOffset - payloadOffset = h := by omega
      rw [hself]
      apply nextIfFree_of_odd
      rw [nextHeader, hszMU, thisSizeWord, show sizeTypeBytes = 8 from rfl, usedMem,
        writeWord_ne _ _ _ (by omega), writeWord_ne _ _ _ (by omega)]
      rw [show M (h + T + 8) = 1 from hw3]
    · dsimp only
      have hself : h + payloadOffset - payloadOffset = h := by omega
      rw [hself]
      apply prevIfFree_of_odd
      rw [prevSizeWord, usedMem, writeWord_ne _ _ _ (by omega),
        writeWord_ne _ _ _ (by omega)]
      rw [show M h = 1 from hw2]

/-- C3, amended: on a freshly constructed, non-degenerate allocator, for
every non-wrapping size `S` (at most `2^64 - 32`, mirroring the C1 bound)
for which `allocate S` succeeds returning `p`, the sequence
`allocate S; deallocate p; allocate S` (nothing in between) makes the second
`allocate` return exactly the same address `p`.  The bound keeps every chunk
the trace ever links at 32 bytes or more, where the list abstraction is
store-exact; wrapped requests on a 16-byte interior break the round trip
(see the counterexample). -/
theorem fresh_roundtrip {m : Mem} {b e : Nat} (S p : Nat) {st1 : AllocState}
    (hb : b + 31 < W) (_hS : S + 32 ≤ W)
    (hne : (construct m b e).freeList ≠ [])
    (halloc : allocate (construct m b e) S = (some p, st1)) :
    (allocate (deallocate st1 p) S).1 = some p := by
  have hWp := W_pos
  have hnd : beginAligned b < endAligned e := by
    by_contra hle
    refine hne ?_
    rw [construct, if_pos (by omega)]
  obtain ⟨hc, hg16, hgm, hdm, hdle⟩ := construct_nondegen hb hnd
  rw [hc] at halloc
  have hT16 : 16 ≤ endAligned e - beginAligned b := by omega
  exact roundtrip_core (by omega) (by omega) (by omega)
    (thisWord_freshMem (by omega) (by omega)) prevWord_freshMem sentinelThis_freshMem halloc

theorem fresh_roundtrip_witness :
    (0 : Nat) + 31 < W ∧ (32 : Nat) + 32 ≤ W ∧
      (construct (fun _ => 0) 0 128).freeList ≠ [] ∧
      (allocate (deallocate (allocate (construct (fun _ => 0) 0 128) 32).2 16) 32).1 =
        some 16 := by
  have h1 : (allocate (construct (fun _ => 0) 0 128) 32).1 = some 16 := by decide
  have h : allocate (construct (fun _ => 0) 0 128) 32 =
      (some 16, (allocate (construct (fun _ => 0) 0 128) 32).2) := by
    rw [← h1]
  exact ⟨by norm_num [W], by norm_num [W], by decide,
    fresh_roundtrip 32 16 (by norm_num [W]) (by norm_num [W]) (by decide) h⟩

/-- C3 counterexample to the original claim: constructing over `[32, 80)`
gives a 16-byte interior whose end-sentinel words the constructor's own
`link(&m_freeList)` stores overwrite.  The wrapped request `2^64 - 16`
succeeds, returning payload 48; `deallocate 48` then reads the clobbered
sentinel as a free neighbour, phantom-merges, and follows `prevFree`
pointers through memory the allocator never wrote.  In the store-accurate
embedding (head slot at 1000) with the surrounding memory of `cexMemRT`,
the second `allocate` of the same size returns 216, not 48, so the
round-trip property fails on the program. -/
theorem fresh_roundtrip_counterexample :
    (allocateR (constructR cexMemRT 32 80 1000 20) 1000 20 (W - 16)).1 =
      some 48 ∧
    (allocateR (deallocateR (allocateR (constructR cexMemRT 32 80 1000
      20) 1000 20 (W - 16)).2 1000 20 48) 1000 20 (W - 16)).1 = some 216 ∧
    some 216 ≠ some 48 := by
  refine ⟨by decide, by decide, by decide⟩

/-! ### C5: coalescing two adjacent blocks on a fresh allocator -/

theorem pair_none_ne_some {p : Nat} {st st1 st2 : AllocState}
    (h : ((none : Option Nat), st) = (some p, st2)) : st1 = st1 → False := by
  intro _
  exact absurd (congrArg Prod.fst h) (by simp)

theorem neededSize_exact {T : Nat} (h64 : 64 ≤ T) (hTm : T % 16 = 0) (hTW : T < W) :
    neededSize (T - 16) = T := by
  have hW16 : W % 16 = 0 := by norm_num [W]
  have hTle : T + 15 < W := by omega
  rw [neededSize, if_neg (by rw [minimumAllocSize, sizeTypeBytes]; omega)]
  have harg : (T - 16 + 2 * sizeTypeBytes) % W = T := by
    rw [show 2 * sizeTypeBytes = 16 from rfl]
    rw [show T - 16 + 16 = T by omega]
    exact Nat.mod_eq_of_lt (by omega)
  rw [harg, alignUp, show maxAlignment = 16 from rfl,
    Nat.mod_eq_of_lt hTle, land_align_of_lt (by omega)]
  omega

theorem coalesce_AB {M : Mem} {h T k1 : Nat}
    (hT : k1 + 32 ≤ T) (hk1 : 32 ≤ k1) (hk1m : k1 % 16 = 0)
    (hTm : T % 16 = 0) (hTW : T < W)
    (hw2 : prevSizeWord M h = 1) (hw3 : thisSizeWord M (h + T) = 1) :
    (deallocate (deallocate
        ⟨usedMem (splitMem M h k1 T) (h + k1) (T - k1), []⟩ (h + 16)) (h + k1 + 16)).freeList
      = [h] ∧
    hSize (deallocate (deallocate
        ⟨usedMem (splitMem M h k1 T) (h + k1) (T - k1), []⟩ (h + 16)) (h + k1 + 16)).mem h
      = T ∧
    (allocate (deallocate (deallocate
        ⟨usedMem (splitMem M h k1 T) (h + k1) (T - k1), []⟩ (h + 16)) (h + k1 + 16))
      (T - 16)).1 = some (h + 16) := by
  have hWp := W_pos
  have hk1W : k1 < W := by omega
  have hk1e : k1 % 2 = 0 := by omega
  have hre : (T - k1) % 2 = 0 := by omega
  have hrW : T - k1 < W := by omega
  have hpo : payloadOffset = 16 := rfl
  have hs8 : sizeTypeBytes = 8 := rfl
  -- first deallocation (of A at h + 16)
  have hszA : hSize (usedMem (splitMem M h k1 T) (h + k1) (T - k1)) h = k1 := by
    rw [hSize, thisSizeWord, hs8, usedMem, splitMem,
      writeWord_ne _ _ _ (by omega), writeWord_ne _ _ _ (by omega),
      writeWord_ne _ _ _ (by omega), writeWord_ne _ _ _ (by omega),
      writeWord_ne _ _ _ (by omega), writeWord_same,
      maskFlag_succ_of_even hk1e hk1W]
  have hd1 := @deallocate_none_none
    ⟨usedMem (splitMem M h k1 T) (h + k1) (T - k1), []⟩ (h + 16) ?_ ?_
  · rw [hpo] at hd1
    rw [show h + 16 - 16 = h by omega] at hd1
    rw [hszA] at hd1
    rw [setSizeFree_eq _ _ hk1e hk1W] at hd1
    rw [hd1]
    -- second deallocation (of B at h + k1 + 16)
    have hszB : hSize (writeWord (writeWord (usedMem (splitMem M h k1 T)
        (h + k1) (T - k1)) (h + 8) k1) (h + k1) k1) (h + k1) = T - k1 := by
      rw [hSize, thisSizeWord, hs8,
        writeWord_ne _ _ _ (by omega), writeWord_ne _ _ _ (by omega), usedMem,
        writeWord_ne _ _ _ (by omega), writeWord_same,
        maskFlag_succ_of_even hre hrW]
    have hszh : hSize (writeWord (writeWord (usedMem (splitMem M h k1 T)
        (h + k1) (T - k1)) (h + 8) k1) (h + k1) k1) h = k1 := by
      rw [hSize, thisSizeWord, hs8,
        writeWord_ne _ _ _ (by omega), writeWord_same,
        maskFlag_of_even hk1e hk1W]
    have hd2 := @deallocate_prev_free
      ⟨writeWord (writeWord (usedMem (splitMem M h k1 T)
          (h + k1) (T - k1)) (h + 8) k1) (h + k1) k1,
        linkList (writeWord (writeWord (usedMem (splitMem M h k1 T)
          (h + k1) (T - k1)) (h + 8) k1) (h + k1) k1) h []⟩
      (h + k1 + 16) h ?_ ?_
    · rw [hpo] at hd2
      rw [show h + k1 + 16 - 16 = h + k1 by omega] at hd2
      rw [hszB, hszh] at hd2
      rw [show (T - k1 + k1) % W = T from by rw [show T - k1 + k1 = T by omega]; exact Nat.mod_eq_of_lt hTW] at hd2
      rw [setSizeFree_eq _ _ (by omega) hTW] at hd2
      rw [hd2]
      dsimp only
      have hlink : linkList (writeWord (writeWord (usedMem (splitMem M h k1 T)
          (h + k1) (T - k1)) (h + 8) k1) (h + k1) k1) h [] = [h] := rfl
      rw [hlink, show [h].erase h = [] from List.erase_cons_head h []]
      have hszT : ∀ v1 v2 v3 v4,
          hSize (writeWord (writeWord (writeWord (writeWord (usedMem (splitMem M h k1 T)
            (h + k1) (T - k1)) (h + 8) v1) (h + k1) v2) (h + 8) v3) (h + T) v4) h
          = maskFlag v3 := by
        intro v1 v2 v3 v4
        rw [hSize, thisSizeWord, hs8, writeWord_ne _ _ _ (by omega), writeWord_same]
      refine ⟨rfl, ?_, ?_⟩
      · rw [hszT, maskFlag_of_even (by omega) hTW]
      · apply allocate_fst_of_found
        dsimp only
        rw [neededSize_exact (by omega) hTm hTW, linkList, firstFit,
          if_pos (by rw [hszT, maskFlag_of_even (by omega) hTW])]
    · -- next of B is the sentinel, marked in use
      dsimp only
      rw [hpo, show h + k1 + 16 - 16 = h + k1 by omega]
      apply nextIfFree_of_odd
      rw [nextHeader, hszB, show h + k1 + (T - k1) = h + T by omega, thisSizeWord, hs8,
        writeWord_ne _ _ _ (by omega), writeWord_ne _ _ _ (by omega), usedMem,
        writeWord_ne _ _ _ (by omega), writeWord_ne _ _ _ (by omega), splitMem,
        writeWord_ne _ _ _ (by omega), writeWord_ne _ _ _ (by omega),
        writeWord_ne _ _ _ (by omega), writeWord_ne _ _ _ (by omega)]
      rw [show M (h + T + 8) = 1 from hw3]
    · -- previous of B is A, now free
      dsimp only
      rw [hpo, show h + k1 + 16 - 16 = h + k1 by omega]
      have hpe : prevSizeWord (writeWord (writeWord (usedMem (splitMem M h k1 T)
          (h + k1) (T - k1)) (h + 8) k1) (h + k1) k1) (h + k1) = k1 := by
        rw [prevSizeWord, writeWord_same]
      rw [prevIfFree_of_even (by rw [hpe]; omega)]
      rw [previousSize, hpe, maskFlag_of_even hk1e hk1W,
        show h + k1 - k1 = h by omega]
  · -- next of A is B, still in use
    dsimp only
    rw [hpo, show h + 16 - 16 = h by omega]
    apply nextIfFree_of_odd
    rw [nextHeader, hszA, thisSizeWord, hs8, usedMem,
      writeWord_ne _ _ _ (by omega), writeWord_same]
    omega
  · -- previous of A is the entry sentinel
    dsimp only
    rw [hpo, show h + 16 - 16 = h by omega]
    apply prevIfFree_of_odd
    rw [prevSizeWord, usedMem, writeWord_ne _ _ _ (by omega),
      writeWord_ne _ _ _ (by omega), splitMem,
      writeWord_ne _ _ _ (by omega), writeWord_ne _ _ _ (by omega),
      writeWord_ne _ _ _ (by omega), writeWord_ne _ _ _ (by omega)]
    rw [show M h = 1 from hw2]

theorem coalesce_BA {M : Mem} {h T k1 : Nat}
    (hT : k1 + 32 ≤ T) (hk1 : 32 ≤ k1) (hk1m : k1 % 16 = 0)
    (hTm : T % 16 = 0) (hTW : T < W)
    (hw2 : prevSizeWord M h = 1) (hw3 : thisSizeWord M (h + T) = 1) :
    (deallocate (deallocate
        ⟨usedMem (splitMem M h k1 T) (h + k1) (T - k1), []⟩ (h + k1 + 16)) (h + 16)).freeList
      = [h] ∧
    hSize (deallocate (deallocate
        ⟨usedMem (splitMem M h k1 T) (h + k1) (T - k1), []⟩ (h + k1 + 16)) (h + 16)).mem h
      = T ∧
    (allocate (deallocate (deallocate
        ⟨usedMem (splitMem M h k1 T) (h + k1) (T - k1), []⟩ (h + k1 + 16)) (h + 16))
      (T - 16)).1 = some (h + 16) := by
  have hWp := W_pos
  have hk1W : k1 < W := by omega
  have hk1e : k1 % 2 = 0 := by omega
  have hre : (T - k1) % 2 = 0 := by omega
  have hrW : T - k1 < W := by omega
  have hpo : payloadOffset = 16 := rfl
  have hs8 : sizeTypeBytes = 8 := rfl
  -- first deallocation (of B at h + k1 + 16)
  have hszB0 : hSize (usedMem (splitMem M h k1 T) (h + k1) (T - k1)) (h + k1) = T - k1 := by
    rw [hSize, thisSizeWord, hs8, usedMem,
      writeWord_ne _ _ _ (by omega), writeWord_same, maskFlag_succ_of_even hre hrW]
  have hd1 := @deallocate_none_none
    ⟨usedMem (splitMem M h k1 T) (h + k1) (T - k1), []⟩ (h + k1 + 16) ?_ ?_
  · rw [hpo] at hd1
    rw [show h + k1 + 16 - 16 = h + k1 by omega] at hd1
    rw [hszB0] at hd1
    rw [setSizeFree_eq _ _ hre hrW] at hd1
    rw [hd1]
    -- second deallocation (of A at h + 16), merging forward into B
    have hszA1 : hSize (writeWord (writeWord (usedMem (splitMem M h k1 T)
        (h + k1) (T - k1)) (h + k1 + 8) (T - k1)) (h + k1 + (T - k1)) (T - k1)) h = k1 := by
      rw [hSize, thisSizeWord, hs8,
        writeWord_ne _ _ _ (by omega), writeWord_ne _ _ _ (by omega), usedMem,
        writeWord_ne _ _ _ (by omega), writeWord_ne _ _ _ (by omega), splitMem,
        writeWord_ne _ _ _ (by omega), writeWord_ne _ _ _ (by omega),
        writeWord_ne _ _ _ (by omega), writeWord_same,
        maskFlag_succ_of_even hk1e hk1W]
    have hszB1 : hSize (writeWord (writeWord (usedMem (splitMem M h k1 T)
        (h + k1) (T - k1)) (h + k1 + 8) (T - k1)) (h + k1 + (T - k1)) (T - k1))
        (h + k1) = T - k1 := by
      rw [hSize, thisSizeWord, hs8,
        writeWord_ne _ _ _ (by omega), writeWord_same, maskFlag_of_even hre hrW]
    have hd2 := @deallocate_next_free
      ⟨writeWord (writeWord (usedMem (splitMem M h k1 T)
          (h + k1) (T - k1)) (h + k1 + 8) (T - k1)) (h + k1 + (T - k1)) (T - k1),
        linkList (writeWord (writeWord (usedMem (splitMem M h k1 T)
          (h + k1) (T - k1)) (h + k1 + 8) (T - k1)) (h + k1 + (T - k1)) (T - k1))
          (h + k1) []⟩
      (h + 16) (h + k1) ?_ ?_
    · rw [hpo] at hd2
      rw [show h + 16 - 16 = h by omega] at hd2
      rw [hszA1, hszB1] at hd2
      rw [show (k1 + (T - k1)) % W = T from by rw [show k1 + (T - k1) = T by omega]; exact Nat.mod_eq_of_lt hTW] at hd2
      rw [setSizeFree_eq _ _ (by omega) hTW] at hd2
      rw [hd2]
      dsimp only
      have hlink : linkList (writeWord (writeWord (usedMem (splitMem M h k1 T)
          (h + k1) (T - k1)) (h + k1 + 8) (T - k1)) (h + k1 + (T - k1)) (T - k1))
          (h + k1) [] = [h + k1] := rfl
      rw [hlink, show [h + k1].erase (h + k1) = [] from List.erase_cons_head _ []]
      have hszT : ∀ v3 v4,
          hSize (writeWord (writeWord (writeWord (writeWord (usedMem (splitMem M h k1 T)
            (h + k1) (T - k1)) (h + k1 + 8) (T - k1)) (h + k1 + (T - k1)) (T - k1))
            (h + 8) v3) (h + T) v4) h
          = maskFlag v3 := by
        intro v3 v4
        rw [hSize, thisSizeWord, hs8, writeWord_ne _ _ _ (by omega), writeWord_same]
      refine ⟨rfl, ?_, ?_⟩
      · rw [hszT, maskFlag_of_even (by omega) hTW]
      · apply allocate_fst_of_found
        dsimp only
        rw [neededSize_exact (by omega) hTm hTW, linkList, firstFit,
          if_pos (by rw [hszT, maskFlag_of_even (by omega) hTW])]
    · -- next of A is B, just freed
      dsimp only
      rw [hpo, show h + 16 - 16 = h by omega]
      have heven : thisSizeWord (writeWord (writeWord (usedMem (splitMem M h k1 T)
          (h + k1) (T - k1)) (h + k1 + 8) (T - k1)) (h + k1 + (T - k1)) (T - k1))
          (nextHeader (writeWord (writeWord (usedMem (splitMem M h k1 T)
            (h + k1) (T - k1)) (h + k1 + 8) (T - k1)) (h + k1 + (T - k1)) (T - k1)) h)
          % 2 = 0 := by
        rw [nextHeader, hszA1, thisSizeWord, hs8,
          writeWord_ne _ _ _ (by omega), writeWord_same]
        omega
      rw [nextIfFree_of_even heven, nextHeader, hszA1]
    · -- previous of A is the entry sentinel
      dsimp only
      rw [hpo, show h + 16 - 16 = h by omega]
      apply prevIfFree_of_odd
      rw [prevSizeWord, writeWord_ne _ _ _ (by omega), writeWord_ne _ _ _ (by omega),
        usedMem, writeWord_ne _ _ _ (by omega), writeWord_ne _ _ _ (by omega), splitMem,
        writeWord_ne _ _ _ (by omega), writeWord_ne _ _ _ (by omega),
        writeWord_ne _ _ _ (by omega), writeWord_ne _ _ _ (by omega)]
      rw [show M h = 1 from hw2]
  · -- next of B is the sentinel, marked in use
    dsimp only
    rw [hpo, show h + k1 + 16 - 16 = h + k1 by omega]
    apply nextIfFree_of_odd
    rw [nextHeader, hszB0, show h + k1 + (T - k1) = h + T by omega, thisSizeWord, hs8,
      usedMem, writeWord_ne _ _ _ (by omega), writeWord_ne _ _ _ (by omega), splitMem,
      writeWord_ne _ _ _ (by omega), writeWord_ne _ _ _ (by omega),
      writeWord_ne _ _ _ (by omega), writeWord_ne _ _ _ (by omega)]
    rw [show M (h + T + 8) = 1 from hw3]
  · -- previous of B is A, still in use
    dsimp only
    rw [hpo, show h + k1 + 16 - 16 = h + k1 by omega]
    apply prevIfFree_of_odd
    rw [prevSizeWord, usedMem, writeWord_ne _ _ _ (by omega),
      writeWord_ne _ _ _ (by omega), splitMem,
      writeWord_ne _ _ _ (by omega), writeWord_ne _ _ _ (by omega), writeWord_same]
    omega

theorem hSize_used_split_front {M : Mem} {h T k1 : Nat}
    (hT : k1 + 32 ≤ T) (hk1 : 32 ≤ k1) (hk1m : k1 % 16 = 0) (hTW : T < W) :
    hSize (usedMem (splitMem M h k1 T) (h + k1) (T - k1)) h = k1 := by
  rw [hSize, thisSizeWord, show sizeTypeBytes = 8 from rfl, usedMem, splitMem,
    writeWord_ne _ _ _ (by omega), writeWord_ne _ _ _ (by omega),
    writeWord_ne _ _ _ (by omega), writeWord_ne _ _ _ (by omega),
    writeWord_ne _ _ _ (by omega), writeWord_same,
    maskFlag_succ_of_even (by omega) (by omega)]

theorem hSize_used_split_back {M : Mem} {h T k1 : Nat}
    (hT : k1 + 32 ≤ T) (hk1m : k1 % 16 = 0) (hTm : T % 16 = 0) (hTW : T < W) :
    hSize (usedMem (splitMem M h k1 T) (h + k1) (T - k1)) (h + k1) = T - k1 := by
  rw [hSize, thisSizeWord, show sizeTypeBytes = 8 from rfl, usedMem,
    writeWord_ne _ _ _ (by omega), writeWord_same,
    maskFlag_succ_of_even (by omega) (by omega)]

/-- C5 amended: from a fresh allocator, allocate block A then block B; when
neither request wraps and the second allocation consumed the remainder of
the region exactly (the free list is empty afterwards — i.e. no split
occurred on B), freeing the two blocks in either order coalesces them into
a single free chunk whose size is exactly `sizeOf(A) + sizeOf(B)`, and a
subsequent `allocate` of the combined usable size succeeds, returning A's
address again. -/
theorem coalesce_two_blocks {m : Mem} {b e : Nat} (n1 n2 p1 p2 : Nat)
    {st1 st2 : AllocState}
    (hb : b + 31 < W) (hn1 : n1 + 32 ≤ W) (hn2 : n2 + 32 ≤ W)
    (ha1 : allocate (construct m b e) n1 = (some p1, st1))
    (ha2 : allocate st1 n2 = (some p2, st2))
    (hempty : st2.freeList = []) :
    (deallocate (deallocate st2 p1) p2).freeList = [p1 - payloadOffset] ∧
      hSize (deallocate (deallocate st2 p1) p2).mem (p1 - payloadOffset) =
        hSize st2.mem (p1 - payloadOffset) + hSize st2.mem (p2 - payloadOffset) ∧
      (allocate (deallocate (deallocate st2 p1) p2)
          (hSize st2.mem (p1 - payloadOffset) + hSize st2.mem (p2 - payloadOffset)
            - payloadOffset)).1 = some p1 ∧
      (deallocate (deallocate st2 p2) p1).freeList = [p1 - payloadOffset] ∧
      hSize (deallocate (deallocate st2 p2) p1).mem (p1 - payloadOffset) =
        hSize st2.mem (p1 - payloadOffset) + hSize st2.mem (p2 - payloadOffset) ∧
      (allocate (deallocate (deallocate st2 p2) p1)
          (hSize st2.mem (p1 - payloadOffset) + hSize st2.mem (p2 - payloadOffset)
            - payloadOffset)).1 = some p1 := by
  have hWp := W_pos
  have hpo : payloadOffset = 16 := rfl
  have hhb : headerBytes = 32 := rfl
  have hnd : beginAligned b < endAligned e := by
    by_contra hle
    have hc : construct m b e = ⟨m, []⟩ := by
      rw [construct, if_pos (by omega)]
    rw [hc] at ha1
    have hres : allocate ⟨m, []⟩ n1 = (none, ⟨m, []⟩) := rfl
    rw [hres] at ha1
    exact absurd (congrArg Prod.fst ha1) (by simp)
  obtain ⟨hc, hg16, hgm, hdm, hdle⟩ := construct_nondegen hb hnd
  rw [hc] at ha1
  have hT16 : 16 ≤ endAligned e - beginAligned b := by omega
  have hTm : (endAligned e - beginAligned b) % 16 = 0 := by omega
  have hTW : endAligned e - beginAligned b < W := by omega
  have hw1 := thisWord_freshMem (m := m) (h := beginAligned b - 16)
    (T := endAligned e - beginAligned b) (by omega) (by omega)
  have hw2 := prevWord_freshMem (m := m) (h := beginAligned b - 16)
    (T := endAligned e - beginAligned b)
  have hw3 := sentinelThis_freshMem (m := m) (h := beginAligned b - 16)
    (T := endAligned e - beginAligned b)
  have hsze : hSize (freshMem m (beginAligned b - 16) (endAligned e - beginAligned b))
      (beginAligned b - 16) = endAligned e - beginAligned b := by
    rw [hSize, hw1, maskFlag_of_even (by omega) hTW]
  have hk1_32 := neededSize_ge32 hn1
  have hk1m := neededSize_mod16 n1
  have hk1W : neededSize n1 < W := by
    have := neededSize_le n1
    omega
  have hkT1 : neededSize n1 ≤ endAligned e - beginAligned b := by
    by_contra hgt
    have hnone : firstFit (freshMem m (beginAligned b - 16)
        (endAligned e - beginAligned b)) (neededSize n1) [beginAligned b - 16] = none := by
      rw [firstFit, if_neg (by rw [hsze]; omega)]
      rfl
    have hres : allocate ⟨freshMem m (beginAligned b - 16)
        (endAligned e - beginAligned b), [beginAligned b - 16]⟩ n1 =
        (none, ⟨freshMem m (beginAligned b - 16)
          (endAligned e - beginAligned b), [beginAligned b - 16]⟩) := by
      simp only [allocate, hnone]
    rw [hres] at ha1
    exact absurd (congrArg Prod.fst ha1) (by simp)
  have hfit1 : firstFit (freshMem m (beginAligned b - 16)
      (endAligned e - beginAligned b)) (neededSize n1) [beginAligned b - 16] =
      some (beginAligned b - 16) := by
    rw [firstFit, if_pos (by rw [hsze]; omega)]
  have herase : [beginAligned b - 16].erase (beginAligned b - 16) = [] :=
    List.erase_cons_head _ _
  by_cases hsp1 : headerBytes ≤ (endAligned e - beginAligned b) - neededSize n1
  · have hstep := @allocate_split_eq ⟨freshMem m (beginAligned b - 16)
        (endAligned e - beginAligned b), [beginAligned b - 16]⟩ n1
        (beginAligned b - 16) hfit1 (by omega) (by dsimp only; rw [hsze]; omega)
    dsimp only at hstep
    rw [hsze, herase] at hstep
    rw [hstep] at ha1
    injection ha1 with h1 h2
    rw [← h2] at ha2
    have hszB1 : hSize (splitMem (freshMem m (beginAligned b - 16)
        (endAligned e - beginAligned b)) (beginAligned b - 16) (neededSize n1)
        (endAligned e - beginAligned b)) (beginAligned b - 16 + neededSize n1) =
        endAligned e - beginAligned b - neededSize n1 :=
      hSize_splitMem_next (by omega) (by omega) (by omega)
    have hk2_32 := neededSize_ge32 hn2
    have hk2m := neededSize_mod16 n2
    have hk2W : neededSize n2 < W := by
      have := neededSize_le n2
      omega
    have hkT2 : neededSize n2 ≤ endAligned e - beginAligned b - neededSize n1 := by
      by_contra hgt
      have hnone : firstFit (splitMem (freshMem m (beginAligned b - 16)
          (endAligned e - beginAligned b)) (beginAligned b - 16) (neededSize n1)
          (endAligned e - beginAligned b)) (neededSize n2)
          (linkList (splitMem (freshMem m (beginAligned b - 16)
            (endAligned e - beginAligned b)) (beginAligned b - 16) (neededSize n1)
            (endAligned e - beginAligned b))
            (beginAligned b - 16 + neededSize n1) []) = none := by
        rw [linkList, firstFit, if_neg (by rw [hszB1]; omega)]
        rfl
      have hres : allocate ⟨splitMem (freshMem m (beginAligned b - 16)
          (endAligned e - beginAligned b)) (beginAligned b - 16) (neededSize n1)
          (endAligned e - beginAligned b),
          linkList (splitMem (freshMem m (beginAligned b - 16)
            (endAligned e - beginAligned b)) (beginAligned b - 16) (neededSize n1)
            (endAligned e - beginAligned b))
            (beginAligned b - 16 + neededSize n1) []⟩ n2 =
          (none, ⟨splitMem (freshMem m (beginAligned b - 16)
            (endAligned e - beginAligned b)) (beginAligned b - 16) (neededSize n1)
            (endAligned e - beginAligned b),
            linkList (splitMem (freshMem m (beginAligned b - 16)
              (endAligned e - beginAligned b)) (beginAligned b - 16) (neededSize n1)
              (endAligned e - beginAligned b))
              (beginAligned b - 16 + neededSize n1) []⟩) := by
        simp only [allocate, hnone]
      rw [hres] at ha2
      exact absurd (congrArg Prod.fst ha2) (by simp)
    have hfit2 : firstFit (splitMem (freshMem m (beginAligned b - 16)
        (endAligned e - beginAligned b)) (beginAligned b - 16) (neededSize n1)
        (endAligned e - beginAligned b)) (neededSize n2)
        (linkList (splitMem (freshMem m (beginAligned b - 16)
          (endAligned e - beginAligned b)) (beginAligned b - 16) (neededSize n1)
          (endAligned e - beginAligned b))
          (beginAligned b - 16 + neededSize n1) []) =
        some (beginAligned b - 16 + neededSize n1) := by
      rw [linkList, firstFit, if_pos (by rw [hszB1]; omega)]
    by_cases hsp2 : headerBytes ≤
        (endAligned e - beginAligned b - neededSize n1) - neededSize n2
    · -- a second split would leave a free chunk, contradicting the empty list
      have hstep2 := @allocate_split_eq ⟨splitMem (freshMem m (beginAligned b - 16)
          (endAligned e - beginAligned b)) (beginAligned b - 16) (neededSize n1)
          (endAligned e - beginAligned b),
          linkList (splitMem (freshMem m (beginAligned b - 16)
            (endAligned e - beginAligned b)) (beginAligned b - 16) (neededSize n1)
            (endAligned e - beginAligned b))
            (beginAligned b - 16 + neededSize n1) []⟩ n2
          (beginAligned b - 16 + neededSize n1) hfit2 (by omega)
          (by dsimp only; rw [hszB1]; omega)
      dsimp only at hstep2
      rw [hszB1] at hstep2
      rw [hstep2] at ha2
      injection ha2 with h1b h2b
      rw [← h2b] at hempty
      dsimp only at hempty
      rw [show (linkList (splitMem (freshMem m (beginAligned b - 16)
          (endAligned e - beginAligned b)) (beginAligned b - 16) (neededSize n1)
          (endAligned e - beginAligned b))
          (beginAligned b - 16 + neededSize n1) []).erase
          (beginAligned b - 16 + neededSize n1) = [] from by
        rw [linkList]; exact List.erase_cons_head _ _] at hempty
      exact absurd hempty (by simp [linkList])
    · have hstep2 := @allocate_nosplit_eq ⟨splitMem (freshMem m (beginAligned b - 16)
          (endAligned e - beginAligned b)) (beginAligned b - 16) (neededSize n1)
          (endAligned e - beginAligned b),
          linkList (splitMem (freshMem m (beginAligned b - 16)
            (endAligned e - beginAligned b)) (beginAligned b - 16) (neededSize n1)
            (endAligned e - beginAligned b))
            (beginAligned b - 16 + neededSize n1) []⟩ n2
          (beginAligned b - 16 + neededSize n1) hfit2
          (by dsimp only; rw [hszB1]; omega)
      dsimp only at hstep2
      rw [hszB1] at hstep2
      rw [show (linkList (splitMem (freshMem m (beginAligned b - 16)
          (endAligned e - beginAligned b)) (beginAligned b - 16) (neededSize n1)
          (endAligned e - beginAligned b))
          (beginAligned b - 16 + neededSize n1) []).erase
          (beginAligned b - 16 + neededSize n1) = [] from by
        rw [linkList]; exact List.erase_cons_head _ _] at hstep2
      rw [hstep2] at ha2
      injection ha2 with h1b h2b
      injection h1b with h1b
      injection h1 with h1
      rw [← h2b, ← h1b, ← h1]
      dsimp only
      rw [hpo]
      rw [show beginAligned b - 16 + 16 - 16 = beginAligned b - 16 from by omega]
      rw [show beginAligned b - 16 + neededSize n1 + 16 - 16 =
        beginAligned b - 16 + neededSize n1 from by omega]
      rw [hSize_used_split_front (by omega) (by omega) (by omega) (by omega),
        hSize_used_split_back (by omega) (by omega) (by omega) (by omega)]
      rw [show neededSize n1 + (endAligned e - beginAligned b - neededSize n1) =
        endAligned e - beginAligned b from by omega]
      exact ⟨(coalesce_AB (by omega) (by omega) (by omega) (by omega) (by omega)
          hw2 hw3).1,
        (coalesce_AB (by omega) (by omega) (by omega) (by omega) (by omega)
          hw2 hw3).2.1,
        (coalesce_AB (by omega) (by omega) (by omega) (by omega) (by omega)
          hw2 hw3).2.2,
        (coalesce_BA (by omega) (by omega) (by omega) (by omega) (by omega)
          hw2 hw3).1,
        (coalesce_BA (by omega) (by omega) (by omega) (by omega) (by omega)
          hw2 hw3).2.1,
        (coalesce_BA (by omega) (by omega) (by omega) (by omega) (by omega)
          hw2 hw3).2.2⟩
  · -- the first allocation taking the whole chunk leaves nothing for B
    have hstep := @allocate_nosplit_eq ⟨freshMem m (beginAligned b - 16)
        (endAligned e - beginAligned b), [beginAligned b - 16]⟩ n1
        (beginAligned b - 16) hfit1 (by dsimp only; rw [hsze]; omega)
    dsimp only at hstep
    rw [hsze, herase] at hstep
    rw [hstep] at ha1
    injection ha1 with h1 h2
    rw [← h2] at ha2
    have hres : allocate ⟨usedMem (freshMem m (beginAligned b - 16)
        (endAligned e - beginAligned b)) (beginAligned b - 16)
        (endAligned e - beginAligned b), []⟩ n2 =
        (none, ⟨usedMem (freshMem m (beginAligned b - 16)
          (endAligned e - beginAligned b)) (beginAligned b - 16)
          (endAligned e - beginAligned b), []⟩) := rfl
    rw [hres] at ha2
    exact absurd (congrArg Prod.fst ha2) (by simp)

/-- C5 fails as stated: on a fresh 512-byte region, allocating A (48-byte
chunk) then B (48-byte chunk) leaves a 416-byte free remainder; freeing A
then B coalesces all three pieces into one free chunk of 512 bytes, which
differs from `sizeOf(A) + sizeOf(B) = 96` — likewise in the other order. -/
theorem coalesce_counterexample :
    (allocate (construct (fun _ => 0) 0 544) 32).1 = some 16 ∧
      (allocate ((allocate (construct (fun _ => 0) 0 544) 32).2) 32).1 = some 64 ∧
      hSize ((allocate ((allocate (construct (fun _ => 0) 0 544) 32).2) 32).2).mem 0
        = 48 ∧
      hSize ((allocate ((allocate (construct (fun _ => 0) 0 544) 32).2) 32).2).mem 48
        = 48 ∧
      (deallocate (deallocate ((allocate ((allocate (construct (fun _ => 0) 0 544)
        32).2) 32).2) 16) 64).freeList = [0] ∧
      hSize (deallocate (deallocate ((allocate ((allocate (construct (fun _ => 0) 0 544)
        32).2) 32).2) 16) 64).mem 0 = 512 ∧
      (deallocate (deallocate ((allocate ((allocate (construct (fun _ => 0) 0 544)
        32).2) 32).2) 64) 16).freeList = [0] ∧
      hSize (deallocate (deallocate ((allocate ((allocate (construct (fun _ => 0) 0 544)
        32).2) 32).2) 64) 16).mem 0 = 512 ∧
      ¬ (512 : Nat) = 48 + 48 := by
  refine ⟨by decide, by decide, by decide, by decide, by decide, by decide, by decide,
    by decide, by decide⟩

theorem coalesce_two_blocks_witness :
    (deallocate (deallocate ((allocate ((allocate (construct (fun _ => 0) 0 128)
        32).2) 32).2) 16) 64).freeList = [16 - payloadOffset] ∧
      hSize (deallocate (deallocate ((allocate ((allocate (construct (fun _ => 0) 0 128)
        32).2) 32).2) 64) 16).mem (16 - payloadOffset) =
        hSize ((allocate ((allocate (construct (fun _ => 0) 0 128) 32).2) 32).2).mem
            (16 - payloadOffset) +
          hSize ((allocate ((allocate (construct (fun _ => 0) 0 128) 32).2) 32).2).mem
            (64 - payloadOffset) := by
  have ha1f : (allocate (construct (fun _ => 0) 0 128) 32).1 = some 16 := by decide
  have ha1 : allocate (construct (fun _ => 0) 0 128) 32 =
      (some 16, (allocate (construct (fun _ => 0) 0 128) 32).2) := by
    rw [← ha1f]
  have ha2f : (allocate ((allocate (construct (fun _ => 0) 0 128) 32).2) 32).1 =
      some 64 := by decide
  have ha2 : allocate ((allocate (construct (fun _ => 0) 0 128) 32).2) 32 =
      (some 64, (allocate ((allocate (construct (fun _ => 0) 0 128) 32).2) 32).2) := by
    rw [← ha2f]
  have h := coalesce_two_blocks 32 32 16 64 (by norm_num [W]) (by norm_num [W])
    (by norm_num [W]) ha1 ha2 (by decide)
  exact ⟨h.1, h.2.2.2.2.1⟩

/-! ### Tiling toolkit -/

theorem tilesSeg_nil {m : Mem} {a b : Nat} : tilesSeg m a b [] ↔ a = b := Iff.rfl

theorem tilesSeg_cons {m : Mem} {a b c : Nat} {l : List Nat} :
    tilesSeg m a b (c :: l) ↔
      c = a ∧ 16 ≤ hSize m a ∧ hSize m a % 16 = 0 ∧
        (prevSizeWord m (a + hSize m a) = thisSizeWord m a ∨
          prevSizeWord m (a + hSize m a) % 2 = 1) ∧
        tilesSeg m (a + hSize m a) b l := Iff.rfl

theorem tilesSeg_append {m : Mem} :
    ∀ {xs : List Nat} {a c : Nat} {ys : List Nat},
      tilesSeg m a c (xs ++ ys) ↔ ∃ q, tilesSeg m a q xs ∧ tilesSeg m q c ys := by
  intro xs
  induction xs with
  | nil =>
    intro a c ys
    constructor
    · intro h
      exact ⟨a, rfl, h⟩
    · rintro ⟨q, hq, hy⟩
      rw [tilesSeg_nil] at hq
      rw [hq]
      exact hy
  | cons x xs ih =>
    intro a c ys
    constructor
    · intro h
      rw [List.cons_append, tilesSeg_cons] at h
      obtain ⟨hx, h16, hm, hmir, ht⟩ := h
      obtain ⟨q, hq, hy⟩ := ih.mp ht
      exact ⟨q, tilesSeg_cons.mpr ⟨hx, h16, hm, hmir, hq⟩, hy⟩
    · rintro ⟨q, hq, hy⟩
      rw [tilesSeg_cons] at hq
      obtain ⟨hx, h16, hm, hmir, ht⟩ := hq
      rw [List.cons_append, tilesSeg_cons]
      exact ⟨hx, h16, hm, hmir, ih.mpr ⟨q, ht, hy⟩⟩

theorem tilesSeg_sum {m : Mem} :
    ∀ {cs : List Nat} {a b : Nat}, tilesSeg m a b cs →
      a ≤ b ∧ (cs.map (hSize m)).sum = b - a := by
  intro cs
  induction cs with
  | nil =>
    intro a b h
    rw [tilesSeg_nil] at h
    simp [h]
  | cons c l ih =>
    intro a b h
    rw [tilesSeg_cons] at h
    obtain ⟨hx, h16, hm, hmir, ht⟩ := h
    obtain ⟨hle, hsum⟩ := ih ht
    subst hx
    constructor
    · omega
    · rw [List.map_cons, List.sum_cons, hsum]
      omega

theorem tilesSeg_mem_bounds {m : Mem} :
    ∀ {cs : List Nat} {a b : Nat}, tilesSeg m a b cs →
      ∀ c ∈ cs, a ≤ c ∧ 16 ≤ hSize m c ∧ hSize m c % 16 = 0 ∧ c + hSize m c ≤ b := by
  intro cs
  induction cs with
  | nil =>
    intro a b _ c hc
    exact absurd hc (List.not_mem_nil c)
  | cons x l ih =>
    intro a b h c hc
    rw [tilesSeg_cons] at h
    obtain ⟨hx, h16, hm, hmir, ht⟩ := h
    subst hx
    have hnext := (tilesSeg_sum ht).1
    rcases List.mem_cons.mp hc with rfl | hc2
    · exact ⟨Nat.le_refl _, h16, hm, hnext⟩
    · obtain ⟨h1, h2, h3, h4⟩ := ih ht c hc2
      exact ⟨by omega, h2, h3, h4⟩

theorem tilesSeg_mod16 {m : Mem} :
    ∀ {cs : List Nat} {a b : Nat}, tilesSeg m a b cs → a % 16 = 0 →
      b % 16 = 0 ∧ ∀ c ∈ cs, c % 16 = 0 := by
  intro cs
  induction cs with
  | nil =>
    intro a b h ha
    rw [tilesSeg_nil] at h
    subst h
    exact ⟨ha, by simp⟩
  | cons x l ih =>
    intro a b h ha
    rw [tilesSeg_cons] at h
    obtain ⟨hx, h16, hm, hmir, ht⟩ := h
    subst hx
    obtain ⟨hb, hrest⟩ := ih ht (by omega)
    refine ⟨hb, ?_⟩
    intro c hc
    rcases List.mem_cons.mp hc with rfl | hc2
    · exact ha
    · exact hrest c hc2

theorem tilesSeg_mem_split {m : Mem} {cs : List Nat} {a b c : Nat}
    (hc : c ∈ cs) (h : tilesSeg m a b cs) :
    ∃ xs ys, cs = xs ++ c :: ys ∧ tilesSeg m a c xs ∧ tilesSeg m c b (c :: ys) := by
  obtain ⟨xs, ys, rfl⟩ := List.append_of_mem hc
  obtain ⟨q, hq, hy⟩ := tilesSeg_append.mp h
  have hqc : c = q := (tilesSeg_cons.mp hy).1
  subst hqc
  exact ⟨xs, ys, rfl, hq, hy⟩

theorem tilesSeg_last_boundary {m : Mem} :
    ∀ {xs : List Nat} {a b : Nat}, tilesSeg m a b xs → xs ≠ [] →
      ∃ w ∈ xs, w + hSize m w = b ∧
        (prevSizeWord m b = thisSizeWord m w ∨ prevSizeWord m b % 2 = 1) := by
  intro xs
  induction xs with
  | nil =>
    intro a b _ hne
    exact absurd rfl hne
  | cons x l ih =>
    intro a b h _
    rw [tilesSeg_cons] at h
    obtain ⟨hx, h16, hm, hmir, ht⟩ := h
    subst hx
    cases l with
    | nil =>
      rw [tilesSeg_nil] at ht
      exact ⟨x, List.mem_cons_self _ _, ht ▸ rfl, ht ▸ hmir⟩
    | cons y l2 =>
      obtain ⟨w, hw, hwb, hwm⟩ := ih ht (by simp)
      exact ⟨w, List.mem_cons_of_mem _ hw, hwb, hwm⟩

theorem tilesSeg_of_agree {m m2 : Mem} :
    ∀ {cs : List Nat} {a b : Nat}, tilesSeg m a b cs →
      (∀ c ∈ cs, thisSizeWord m2 c = thisSizeWord m c) →
      (∀ c ∈ cs, prevSizeWord m2 (c + hSize m c) = thisSizeWord m c ∨
        prevSizeWord m2 (c + hSize m c) % 2 = 1) →
      tilesSeg m2 a b cs := by
  intro cs
  induction cs with
  | nil =>
    intro a b h _ _
    exact h
  | cons x l ih =>
    intro a b h hthis hmir
    rw [tilesSeg_cons] at h
    obtain ⟨hx, h16, hm, _, ht⟩ := h
    subst hx
    have hsz : hSize m2 x = hSize m x := by
      rw [hSize, hthis x (List.mem_cons_self _ _), hSize]
    rw [tilesSeg_cons, hsz]
    refine ⟨rfl, h16, hm, ?_, ?_⟩
    · rcases hmir x (List.mem_cons_self _ _) with he | ho
      · exact Or.inl (by rw [he, hthis x (List.mem_cons_self _ _)])
      · exact Or.inr ho
    · exact ih ht (fun c hc => hthis c (List.mem_cons_of_mem _ hc))
        (fun c hc => hmir c (List.mem_cons_of_mem _ hc))

theorem walkChunks_of_tilesSeg {m : Mem} {b : Nat} :
    ∀ {cs : List Nat} {a fuel : Nat}, tilesSeg m a b cs → b - a ≤ fuel →
      walkChunks m b fuel a = some cs := by
  intro cs
  induction cs with
  | nil =>
    intro a fuel h _
    rw [tilesSeg_nil] at h
    subst h
    cases fuel with
    | zero => rw [walkChunks, if_pos rfl]
    | succ f => rw [walkChunks, if_pos rfl]
  | cons x l ih =>
    intro a fuel h hfuel
    rw [tilesSeg_cons] at h
    obtain ⟨hx, h16, hm, hmir, ht⟩ := h
    subst hx
    have hb := (tilesSeg_sum ht).1
    cases fuel with
    | zero => omega
    | succ f =>
      rw [walkChunks, if_neg (by omega), if_neg (by omega)]
      rw [ih ht (by omega)]
      rfl

/-! ### Invariant preservation -/

theorem tilesSeg_mem_mirror {m : Mem} :
    ∀ {cs : List Nat} {a b : Nat}, tilesSeg m a b cs → ∀ c ∈ cs,
      prevSizeWord m (c + hSize m c) = thisSizeWord m c ∨
        prevSizeWord m (c + hSize m c) % 2 = 1 := by
  intro cs
  induction cs with
  | nil =>
    intro a b _ c hc
    exact absurd hc (List.not_mem_nil c)
  | cons x l ih =>
    intro a b h c hc
    rw [tilesSeg_cons] at h
    obtain ⟨hx, _, _, hmir, ht⟩ := h
    subst hx
    rcases List.mem_cons.mp hc with rfl | hc2
    · exact hmir
    · exact ih ht c hc2

theorem splitMem_other {m : Mem} {a k sz x : Nat}
    (h1 : x ≠ a + 8) (h2 : x ≠ a + k) (h3 : x ≠ a + k + 8) (h4 : x ≠ a + sz) :
    splitMem m a k sz x = m x := by
  rw [splitMem, writeWord_ne _ _ _ h4, writeWord_ne _ _ _ h3,
    writeWord_ne _ _ _ h2, writeWord_ne _ _ _ h1]

theorem usedMem_other {m : Mem} {a sz x : Nat}
    (h1 : x ≠ a + 8) (h2 : x ≠ a + sz) : usedMem m a sz x = m x := by
  rw [usedMem, writeWord_ne _ _ _ h2, writeWord_ne _ _ _ h1]

theorem prevWord_splitMem_mid {m : Mem} {a k sz : Nat} (_hk : 0 < k) (hsz : k < sz) :
    prevSizeWord (splitMem m a k sz) (a + k) = k + 1 := by
  rw [prevSizeWord, splitMem, writeWord_ne _ _ _ (by omega),
    writeWord_ne _ _ _ (by omega), writeWord_same]

theorem prevWord_splitMem_end {m : Mem} {a k sz : Nat} :
    prevSizeWord (splitMem m a k sz) (a + sz) = sz - k := by
  rw [prevSizeWord, splitMem, writeWord_same]

theorem prevWord_usedMem_end {m : Mem} {a sz : Nat} :
    prevSizeWord (usedMem m a sz) (a + sz) = sz + 1 := by
  rw [prevSizeWord, usedMem, writeWord_same]

theorem inv_mk {h0 eH : Nat} {m : Mem} {fl : List Nat} (cs : List Nat)
    (h1 : tilesSeg m h0 eH cs) (h2 : prevSizeWord m h0 % 2 = 1)
    (h3 : thisSizeWord m eH = 1) (h4 : ∀ c ∈ fl, c ∈ cs)
    (h5 : ∀ c ∈ fl, thisSizeWord m c % 2 = 0) (h6 : fl.Nodup)
    (h7 : fl.Pairwise (fun x y => hSize m x ≤ hSize m y))
    (h8 : ∀ c ∈ cs, 32 ≤ hSize m c) :
    Inv h0 eH ⟨m, fl⟩ :=
  ⟨cs, h1, h2, h3, h4, h5, h6, h7, h8⟩

theorem inv_allocate {h0 eH : Nat} {st : AllocState} (n : Nat)
    (hn32 : 32 ≤ neededSize n)
    (inv : Inv h0 eH st) : Inv h0 eH (allocate st n).2 := by
  obtain ⟨cs, htiles, hentry, hsent, hsub, hfree, hnd, hsort, hmin⟩ := inv
  cases hf : firstFit st.mem (neededSize n) st.freeList with
  | none =>
    have hres : allocate st n = (none, st) := by simp only [allocate, hf]
    rw [hres]
    exact ⟨cs, htiles, hentry, hsent, hsub, hfree, hnd, hsort, hmin⟩
  | some a =>
    obtain ⟨hafl, hasz⟩ := firstFit_some hf
    have hacs : a ∈ cs := hsub a hafl
    obtain ⟨xs, ys, hcseq, hxs, hys⟩ := tilesSeg_mem_split hacs htiles
    obtain ⟨-, ha16, ham, hamir, htys⟩ := tilesSeg_cons.mp hys
    have hxsb := tilesSeg_mem_bounds hxs
    have hysb := tilesSeg_mem_bounds htys
    have hcsbnd := tilesSeg_mem_bounds htiles
    have haub : a + hSize st.mem a ≤ eH := (tilesSeg_sum htys).1
    have hh0a : h0 ≤ a := (hcsbnd a hacs).1
    have haeH : a + 16 ≤ eH := by omega
    have hszW : hSize st.mem a < W := hSize_lt _ _
    have hsze2 : hSize st.mem a % 2 = 0 := hSize_even _ _
    have hkm := neededSize_mod16 n
    have hkW : neededSize n < W := by
      have := neededSize_le n
      have := W_pos
      omega
    have hhb : headerBytes = 32 := rfl
    have hs8 : sizeTypeBytes = 8 := rfl
    have hpos : ∀ c ∈ cs, c ≠ a → c + hSize st.mem c ≤ a ∨ a + hSize st.mem a ≤ c := by
      intro c hc hne
      rw [hcseq] at hc
      rcases List.mem_append.mp hc with hcx | hcy
      · exact Or.inl (hxsb c hcx).2.2.2
      · rcases List.mem_cons.mp hcy with rfl | hcy2
        · exact absurd rfl hne
        · exact Or.inr (hysb c hcy2).1
    have hxs_cs : ∀ c ∈ xs, c ∈ cs := by
      intro c hc
      rw [hcseq]
      exact List.mem_append.mpr (Or.inl hc)
    have hxs_ne : ∀ c ∈ xs, c ≠ a := by
      intro c hc he
      have hb := (hxsb c hc).2.2.2
      have h16 := (hxsb c hc).2.1
      rw [he] at hb h16
      omega
    have hys_cs : ∀ c ∈ ys, c ∈ cs := by
      intro c hc
      rw [hcseq]
      exact List.mem_append.mpr (Or.inr (List.mem_cons_of_mem _ hc))
    have hys_ne : ∀ c ∈ ys, c ≠ a := by
      intro c hc he
      have hb := (hysb c hc).1
      rw [he] at hb
      omega
    by_cases hrem : headerBytes ≤ hSize st.mem a - neededSize n
    · rcases (show neededSize n = 0 ∨ 16 ≤ neededSize n from by omega) with hk0 | hk16
      · -- needed sizes below 32 are excluded by the non-wrap hypothesis
        exact absurd hk0 (by omega)
      · -- genuine split
        rw [allocate_split_eq hf hk16 hrem]
        dsimp only
        have hk32 : neededSize n + 32 ≤ hSize st.mem a := by omega
        have hs1 : hSize (splitMem st.mem a (neededSize n) (hSize st.mem a)) a =
            neededSize n := hSize_splitMem_self hk16 (by omega) hkW (by omega)
        have ht1 : thisSizeWord (splitMem st.mem a (neededSize n) (hSize st.mem a)) a =
            neededSize n + 1 := thisWord_splitMem_self hk16 (by omega)
        have hs2 : hSize (splitMem st.mem a (neededSize n) (hSize st.mem a))
            (a + neededSize n) = hSize st.mem a - neededSize n :=
          hSize_splitMem_next (by omega) (by omega) (by omega)
        have ht2w : thisSizeWord (splitMem st.mem a (neededSize n) (hSize st.mem a))
            (a + neededSize n) = hSize st.mem a - neededSize n :=
          thisWord_splitMem_next (by omega)
        have hothis : ∀ c ∈ cs, c ≠ a →
            thisSizeWord (splitMem st.mem a (neededSize n) (hSize st.mem a)) c =
              thisSizeWord st.mem c := by
          intro c hc hne
          have h16c := (hcsbnd c hc).2.1
          rcases hpos c hc hne with hlt | hgt
          · rw [thisSizeWord, thisSizeWord,
              splitMem_other (by omega) (by omega) (by omega) (by omega)]
          · rw [thisSizeWord, thisSizeWord,
              splitMem_other (by omega) (by omega) (by omega) (by omega)]
        have hsize_eq : ∀ c ∈ cs, c ≠ a →
            hSize (splitMem st.mem a (neededSize n) (hSize st.mem a)) c =
              hSize st.mem c := by
          intro c hc hne
          rw [hSize, hothis c hc hne, hSize]
        have hcs_in : ∀ c ∈ cs, c ∈ xs ++ a :: (a + neededSize n) :: ys := by
          intro c hc
          rw [hcseq] at hc
          rcases List.mem_append.mp hc with h1 | h1
          · exact List.mem_append.mpr (Or.inl h1)
          · rcases List.mem_cons.mp h1 with rfl | h2
            · exact List.mem_append.mpr (Or.inr (List.mem_cons_self _ _))
            · exact List.mem_append.mpr (Or.inr (List.mem_cons.mpr
                (Or.inr (List.mem_cons.mpr (Or.inr h2)))))
        refine inv_mk (xs ++ a :: (a + neededSize n) :: ys) ?_ ?_ ?_ ?_ ?_ ?_ ?_ ?_
        · apply tilesSeg_append.mpr
          refine ⟨a, ?_, ?_⟩
          · apply tilesSeg_of_agree hxs
            · intro c hc
              exact hothis c (hxs_cs c hc) (hxs_ne c hc)
            · intro c hc
              have hbc := hxsb c hc
              have hun : prevSizeWord (splitMem st.mem a (neededSize n) (hSize st.mem a))
                  (c + hSize st.mem c) = prevSizeWord st.mem (c + hSize st.mem c) := by
                rw [prevSizeWord, prevSizeWord,
                  splitMem_other (by omega) (by omega) (by omega) (by omega)]
              rw [hun]
              exact tilesSeg_mem_mirror hxs c hc
          · rw [tilesSeg_cons]
            refine ⟨rfl, ?_, ?_, ?_, ?_⟩
            · rw [hs1]
              omega
            · rw [hs1]
              exact hkm
            · rw [hs1, ht1, prevWord_splitMem_mid (by omega) (by omega)]
              exact Or.inl rfl
            · rw [hs1, tilesSeg_cons]
              refine ⟨rfl, ?_, ?_, ?_, ?_⟩
              · rw [hs2]
                omega
              · rw [hs2]
                omega
              · rw [hs2, ht2w,
                  show a + neededSize n + (hSize st.mem a - neededSize n) =
                    a + hSize st.mem a from by omega, prevWord_splitMem_end]
                exact Or.inl rfl
              · rw [hs2,
                  show a + neededSize n + (hSize st.mem a - neededSize n) =
                    a + hSize st.mem a from by omega]
                apply tilesSeg_of_agree htys
                · intro c hc
                  exact hothis c (hys_cs c hc) (hys_ne c hc)
                · intro c hc
                  have hbc := hysb c hc
                  have hun : prevSizeWord (splitMem st.mem a (neededSize n)
                      (hSize st.mem a)) (c + hSize st.mem c) =
                      prevSizeWord st.mem (c + hSize st.mem c) := by
                    rw [prevSizeWord, prevSizeWord,
                      splitMem_other (by omega) (by omega) (by omega) (by omega)]
                  rw [hun]
                  exact tilesSeg_mem_mirror htys c hc
        · have hun : splitMem st.mem a (neededSize n) (hSize st.mem a) h0 = st.mem h0 := by
            rw [splitMem_other (by omega) (by omega) (by omega) (by omega)]
          rw [prevSizeWord, hun]
          exact hentry
        · have hun : splitMem st.mem a (neededSize n) (hSize st.mem a) (eH + 8) =
              st.mem (eH + 8) := by
            rw [splitMem_other (by omega) (by omega) (by omega) (by omega)]
          rw [thisSizeWord, show sizeTypeBytes = 8 from rfl, hun]
          exact hsent
        · intro c hc
          rcases mem_linkList.mp hc with rfl | hc2
          · exact List.mem_append.mpr (Or.inr (List.mem_cons.mpr
              (Or.inr (List.mem_cons_self _ _))))
          · exact hcs_in c (hsub c (List.mem_of_mem_erase hc2))
        · intro c hc
          rcases mem_linkList.mp hc with rfl | hc2
          · rw [ht2w]
            omega
          · rw [hothis c (hsub c (List.mem_of_mem_erase hc2))
              ((hnd.mem_erase_iff.mp hc2).1)]
            exact hfree c (List.mem_of_mem_erase hc2)
        · apply nodup_linkList ?_ (hnd.erase a)
          intro hmem
          have hmem2 := hsub _ (List.mem_of_mem_erase hmem)
          have hne := (hnd.mem_erase_iff.mp hmem).1
          have h16c := (hcsbnd _ hmem2).2.1
          rcases hpos _ hmem2 hne with hlt | hgt
          · omega
          · omega
        · apply pairwise_linkList
          apply List.Pairwise.imp_of_mem ?_ (hsort.sublist (List.erase_sublist _ _))
          intro x y hx hy hxy
          rw [hsize_eq x (hsub x (List.mem_of_mem_erase hx)) ((hnd.mem_erase_iff.mp hx).1),
            hsize_eq y (hsub y (List.mem_of_mem_erase hy)) ((hnd.mem_erase_iff.mp hy).1)]
          exact hxy
        · intro c hc
          rcases List.mem_append.mp hc with h1 | h1
          · rw [hsize_eq c (hxs_cs c h1) (hxs_ne c h1)]
            exact hmin c (hxs_cs c h1)
          · rcases List.mem_cons.mp h1 with rfl | h2
            · rw [hs1]
              exact hn32
            · rcases List.mem_cons.mp h2 with rfl | h3
              · rw [hs2]
                omega
              · rw [hsize_eq c (hys_cs c h3) (hys_ne c h3)]
                exact hmin c (hys_cs c h3)
    · -- no split: the whole chunk is marked used in place
      rw [allocate_nosplit_eq hf (by omega)]
      dsimp only
      have f1 : thisSizeWord (usedMem st.mem a (hSize st.mem a)) a =
          hSize st.mem a + 1 := thisWord_usedMem_self (by omega)
      have f2 : hSize (usedMem st.mem a (hSize st.mem a)) a = hSize st.mem a :=
        hSize_usedMem_self (by omega) hsze2 hszW
      have hothis : ∀ c ∈ cs, c ≠ a →
          thisSizeWord (usedMem st.mem a (hSize st.mem a)) c = thisSizeWord st.mem c := by
        intro c hc hne
        have h16c := (hcsbnd c hc).2.1
        rcases hpos c hc hne with hlt | hgt
        · rw [thisSizeWord, thisSizeWord, usedMem_other (by omega) (by omega)]
        · rw [thisSizeWord, thisSizeWord, usedMem_other (by omega) (by omega)]
      have hsize_eq : ∀ c ∈ cs, c ≠ a →
          hSize (usedMem st.mem a (hSize st.mem a)) c = hSize st.mem c := by
        intro c hc hne
        rw [hSize, hothis c hc hne, hSize]
      refine inv_mk cs ?_ ?_ ?_ ?_ ?_ ?_ ?_ ?_
      · rw [hcseq]
        apply tilesSeg_append.mpr
        refine ⟨a, ?_, ?_⟩
        · apply tilesSeg_of_agree hxs
          · intro c hc
            exact hothis c (hxs_cs c hc) (hxs_ne c hc)
          · intro c hc
            have hbc := hxsb c hc
            have hun : prevSizeWord (usedMem st.mem a (hSize st.mem a))
                (c + hSize st.mem c) = prevSizeWord st.mem (c + hSize st.mem c) := by
              rw [prevSizeWord, prevSizeWord, usedMem_other (by omega) (by omega)]
            rw [hun]
            exact tilesSeg_mem_mirror hxs c hc
        · rw [tilesSeg_cons]
          refine ⟨rfl, ?_, ?_, ?_, ?_⟩
          · rw [f2]
            omega
          · rw [f2]
            exact ham
          · rw [f2, prevWord_usedMem_end]
            right
            omega
          · rw [f2]
            apply tilesSeg_of_agree htys
            · intro c hc
              exact hothis c (hys_cs c hc) (hys_ne c hc)
            · intro c hc
              have hbc := hysb c hc
              have hun : prevSizeWord (usedMem st.mem a (hSize st.mem a))
                  (c + hSize st.mem c) = prevSizeWord st.mem (c + hSize st.mem c) := by
                rw [prevSizeWord, prevSizeWord, usedMem_other (by omega) (by omega)]
              rw [hun]
              exact tilesSeg_mem_mirror htys c hc
      · have hun : usedMem st.mem a (hSize st.mem a) h0 = st.mem h0 := by
          rw [usedMem_other (by omega) (by omega)]
        rw [prevSizeWord, hun]
        exact hentry
      · have hun : usedMem st.mem a (hSize st.mem a) (eH + 8) = st.mem (eH + 8) := by
          rw [usedMem_other (by omega) (by omega)]
        rw [thisSizeWord, show sizeTypeBytes = 8 from rfl, hun]
        exact hsent
      · intro c hc
        exact hsub c (List.mem_of_mem_erase hc)
      · intro c hc
        rw [hothis c (hsub c (List.mem_of_mem_erase hc)) ((hnd.mem_erase_iff.mp hc).1)]
        exact hfree c (List.mem_of_mem_erase hc)
      · exact hnd.erase a
      · apply List.Pairwise.imp_of_mem ?_ (hsort.sublist (List.erase_sublist _ _))
        intro x y hx hy hxy
        rw [hsize_eq x (hsub x (List.mem_of_mem_erase hx)) ((hnd.mem_erase_iff.mp hx).1),
          hsize_eq y (hsub y (List.mem_of_mem_erase hy)) ((hnd.mem_erase_iff.mp hy).1)]
        exact hxy
      · intro c hc
        by_cases hca : c = a
        · rw [hca, f2]
          exact hmin a hacs
        · rw [hsize_eq c hc hca]
          exact hmin c hc

theorem tilesSeg_self_nil {m : Mem} {a : Nat} {cs : List Nat}
    (h : tilesSeg m a a cs) : cs = [] := by
  cases cs with
  | nil => rfl
  | cons c l =>
    obtain ⟨hc, h16, -, -, ht⟩ := tilesSeg_cons.mp h
    have := (tilesSeg_sum ht).1
    omega

theorem liveBlock_mem {h0 eH : Nat} {st : AllocState} {p : Nat} {cs : List Nat}
    (ht : tilesSeg st.mem h0 eH cs) (hl : liveBlock h0 eH st p = true) :
    (p - payloadOffset) ∈ cs ∧ thisSizeWord st.mem (p - payloadOffset) % 2 = 1 := by
  have hwalk : walkChunks st.mem eH (eH - h0) h0 = some cs :=
    walkChunks_of_tilesSeg ht (Nat.le_refl _)
  rw [liveBlock, hwalk] at hl
  simp only [Bool.and_eq_true, decide_eq_true_eq] at hl
  exact ⟨hl.1.2, hl.2⟩

/-- After merging, writing the chunk `[s2, s2 + v)` free and linking it
restores the invariant, provided the rest of the region tiles around it and
the free list survivors avoid the merged range. -/
theorem inv_merge {h0 eH : Nat} {m : Mem} {fl2 xs2 ys2 : List Nat} {s2 v : Nat}
    (hxs2 : tilesSeg m h0 s2 xs2) (hys2 : tilesSeg m (s2 + v) eH ys2)
    (_hv16 : 16 ≤ v) (hvm : v % 16 = 0) (hvW : v < W) (hv32 : 32 ≤ v)
    (ha32 : ∀ c, c ∈ xs2 ∨ c ∈ ys2 → 32 ≤ hSize m c)
    (hentry : prevSizeWord m h0 % 2 = 1) (hsent : thisSizeWord m eH = 1)
    (hfl2sub : ∀ c ∈ fl2, c ∈ xs2 ∨ c ∈ ys2)
    (hfl2free : ∀ c ∈ fl2, thisSizeWord m c % 2 = 0)
    (hfl2nd : fl2.Nodup)
    (hfl2sorted : fl2.Pairwise (fun x y => hSize m x ≤ hSize m y))
    (hs2fl2 : s2 ∉ fl2) :
    Inv h0 eH ⟨setSizeFree m s2 v, linkList (setSizeFree m s2 v) s2 fl2⟩ := by
  have hs8 : sizeTypeBytes = 8 := rfl
  have hxb := tilesSeg_mem_bounds hxs2
  have hyb := tilesSeg_mem_bounds hys2
  have hh0s2 : h0 ≤ s2 := (tilesSeg_sum hxs2).1
  have hveH : s2 + v ≤ eH := (tilesSeg_sum hys2).1
  rw [setSizeFree_eq _ _ (by omega) hvW]
  set m1 := writeWord (writeWord m (s2 + 8) v) (s2 + v) v with hm1def
  have f1 : thisSizeWord m1 s2 = v := by
    rw [hm1def, thisSizeWord, hs8, writeWord_ne _ _ _ (by omega), writeWord_same]
  have f2 : hSize m1 s2 = v := by
    rw [hSize, f1, maskFlag_of_even (by omega) hvW]
  have hpos2 : ∀ c, c ∈ xs2 ∨ c ∈ ys2 → c + hSize m c ≤ s2 ∨ s2 + v ≤ c := by
    intro c hc
    rcases hc with hc | hc
    · exact Or.inl (hxb c hc).2.2.2
    · exact Or.inr (hyb c hc).1
  have hothis : ∀ c, c ∈ xs2 ∨ c ∈ ys2 → thisSizeWord m1 c = thisSizeWord m c := by
    intro c hc
    have h16c : 16 ≤ hSize m c := by
      rcases hc with hc | hc
      · exact (hxb c hc).2.1
      · exact (hyb c hc).2.1
    rcases hpos2 c hc with hlt | hgt
    · rw [thisSizeWord, thisSizeWord, hm1def, writeWord_ne _ _ _ (by omega),
        writeWord_ne _ _ _ (by omega)]
    · rw [thisSizeWord, thisSizeWord, hm1def, writeWord_ne _ _ _ (by omega),
        writeWord_ne _ _ _ (by omega)]
  have hsize_eq : ∀ c, c ∈ xs2 ∨ c ∈ ys2 → hSize m1 c = hSize m c := by
    intro c hc
    rw [hSize, hothis c hc, hSize]
  refine inv_mk (xs2 ++ s2 :: ys2) ?_ ?_ ?_ ?_ ?_ ?_ ?_ ?_
  · apply tilesSeg_append.mpr
    refine ⟨s2, ?_, ?_⟩
    · apply tilesSeg_of_agree hxs2
      · intro c hc
        exact hothis c (Or.inl hc)
      · intro c hc
        have hbc := hxb c hc
        have hun : prevSizeWord m1 (c + hSize m c) =
            prevSizeWord m (c + hSize m c) := by
          rw [prevSizeWord, prevSizeWord, hm1def, writeWord_ne _ _ _ (by omega),
            writeWord_ne _ _ _ (by omega)]
        rw [hun]
        exact tilesSeg_mem_mirror hxs2 c hc
    · rw [tilesSeg_cons]
      refine ⟨rfl, ?_, ?_, ?_, ?_⟩
      · rw [f2]
        omega
      · rw [f2]
        exact hvm
      · rw [f2, f1]
        left
        rw [prevSizeWord, hm1def, writeWord_same]
      · rw [f2]
        apply tilesSeg_of_agree hys2
        · intro c hc
          exact hothis c (Or.inr hc)
        · intro c hc
          have hbc := hyb c hc
          have hun : prevSizeWord m1 (c + hSize m c) =
              prevSizeWord m (c + hSize m c) := by
            rw [prevSizeWord, prevSizeWord, hm1def, writeWord_ne _ _ _ (by omega),
              writeWord_ne _ _ _ (by omega)]
          rw [hun]
          exact tilesSeg_mem_mirror hys2 c hc
  · have hun : m1 h0 = m h0 := by
      rw [hm1def, writeWord_ne _ _ _ (by omega), writeWord_ne _ _ _ (by omega)]
    rw [prevSizeWord, hun]
    exact hentry
  · have hun : m1 (eH + 8) = m (eH + 8) := by
      rw [hm1def, writeWord_ne _ _ _ (by omega), writeWord_ne _ _ _ (by omega)]
    rw [thisSizeWord, hs8, hun]
    exact hsent
  · intro c hc
    rcases mem_linkList.mp hc with rfl | hc2
    · exact List.mem_append.mpr (Or.inr (List.mem_cons_self _ _))
    · rcases hfl2sub c hc2 with h1 | h1
      · exact List.mem_append.mpr (Or.inl h1)
      · exact List.mem_append.mpr (Or.inr (List.mem_cons_of_mem _ h1))
  · intro c hc
    rcases mem_linkList.mp hc with rfl | hc2
    · rw [f1]
      omega
    · rw [hothis c (hfl2sub c hc2)]
      exact hfl2free c hc2
  · exact nodup_linkList hs2fl2 hfl2nd
  · apply pairwise_linkList
    apply List.Pairwise.imp_of_mem ?_ hfl2sorted
    intro x y hx hy hxy
    rw [hsize_eq x (hfl2sub x hx), hsize_eq y (hfl2sub y hy)]
    exact hxy
  · intro c hc
    rcases List.mem_append.mp hc with h1 | h1
    · rw [hsize_eq c (Or.inl h1)]
      exact ha32 c (Or.inl h1)
    · rcases List.mem_cons.mp h1 with rfl | h2
      · rw [f2]
        exact hv32
      · rw [hsize_eq c (Or.inr h2)]
        exact ha32 c (Or.inr h2)

theorem inv_deallocate {h0 eH : Nat} {st : AllocState} {p : Nat}
    (heHW : eH < W)
    (inv : Inv h0 eH st) (hlive : liveBlock h0 eH st p = true) :
    Inv h0 eH (deallocate st p) := by
  obtain ⟨cs, htiles, hentry, hsent, hsub, hfree, hnd, hsort, hmin⟩ := inv
  obtain ⟨hselfcs, hselfodd⟩ := liveBlock_mem htiles hlive
  obtain ⟨xs, ys, hcseq, hxs, hys⟩ := tilesSeg_mem_split hselfcs htiles
  obtain ⟨-, hs16, hsm, hsmir, htys⟩ := tilesSeg_cons.mp hys
  have hxsb := tilesSeg_mem_bounds hxs
  have hh0self : h0 ≤ p - payloadOffset := (tilesSeg_sum hxs).1
  have hsube : p - payloadOffset + hSize st.mem (p - payloadOffset) ≤ eH :=
    (tilesSeg_sum htys).1
  have hszW : hSize st.mem (p - payloadOffset) < W := hSize_lt _ _
  have hselffl : p - payloadOffset ∉ st.freeList := by
    intro hmem
    have := hfree _ hmem
    omega
  have hprevd : prevIfFree st.mem (p - payloadOffset) = none ∨
      (∃ xs0 prw, xs = xs0 ++ [prw] ∧
        prevIfFree st.mem (p - payloadOffset) = some prw ∧
        prw + hSize st.mem prw = p - payloadOffset ∧
        tilesSeg st.mem h0 prw xs0 ∧
        thisSizeWord st.mem prw % 2 = 0) := by
    by_cases hpo2 : prevSizeWord st.mem (p - payloadOffset) % 2 = 1
    · exact Or.inl (prevIfFree_of_odd hpo2)
    · right
      have hpe : prevSizeWord st.mem (p - payloadOffset) % 2 = 0 := by omega
      have hxsne : xs ≠ [] := by
        intro he
        rw [he] at hxs
        have h0self := tilesSeg_nil.mp hxs
        rw [← h0self] at hpe
        omega
      obtain ⟨w, hw, hwb, hwm⟩ := tilesSeg_last_boundary hxs hxsne
      have hweq : prevSizeWord st.mem (p - payloadOffset) = thisSizeWord st.mem w := by
        rcases hwm with h | h
        · exact h
        · omega
      have hweven : thisSizeWord st.mem w % 2 = 0 := by
        rw [← hweq]
        exact hpe
      obtain ⟨xs0, ws2, hxseq, hxs0, hxsw⟩ := tilesSeg_mem_split hw hxs
      obtain ⟨-, -, -, -, htw⟩ := tilesSeg_cons.mp hxsw
      rw [hwb] at htw
      have hws2 := tilesSeg_self_nil htw
      refine ⟨xs0, w, by rw [hxseq, hws2], ?_, hwb, hxs0, hweven⟩
      rw [prevIfFree_of_even hpe]
      congr 1
      rw [previousSize, hweq]
      show p - payloadOffset - hSize st.mem w = w
      omega
  have hnextd : nextIfFree st.mem (p - payloadOffset) = none ∨
      (∃ nxt ys2, ys = nxt :: ys2 ∧
        nextIfFree st.mem (p - payloadOffset) = some nxt ∧
        nxt = p - payloadOffset + hSize st.mem (p - payloadOffset) ∧
        thisSizeWord st.mem nxt % 2 = 0 ∧
        16 ≤ hSize st.mem nxt ∧ hSize st.mem nxt % 16 = 0 ∧
        tilesSeg st.mem (nxt + hSize st.mem nxt) eH ys2) := by
    cases hys0 : ys with
    | nil =>
      left
      rw [hys0] at htys
      have hEnd := tilesSeg_nil.mp htys
      apply nextIfFree_of_odd
      rw [nextHeader, hEnd, hsent]
    | cons nxt ys2 =>
      rw [hys0] at htys
      obtain ⟨hnxteq, hn16, hnm, hnmir, htys2⟩ := tilesSeg_cons.mp htys
      by_cases hodd : thisSizeWord st.mem nxt % 2 = 1
      · left
        apply nextIfFree_of_odd
        rw [nextHeader, ← hnxteq]
        exact hodd
      · right
        rw [← hnxteq] at htys2
        refine ⟨nxt, ys2, rfl, ?_, hnxteq, by omega, ?_, ?_, htys2⟩
        · rw [nextIfFree_of_even (by rw [nextHeader, ← hnxteq]; omega)]
          rw [nextHeader, ← hnxteq]
        · rw [← hnxteq] at hn16
          exact hn16
        · rw [← hnxteq] at hnm
          exact hnm
  have hflxsys : ∀ c ∈ st.freeList, c ∈ xs ∨ c ∈ ys := by
    intro c hc
    have hccs := hsub c hc
    rw [hcseq] at hccs
    rcases List.mem_append.mp hccs with h1 | h1
    · exact Or.inl h1
    · rcases List.mem_cons.mp h1 with rfl | h2
      · exact absurd hc hselffl
      · exact Or.inr h2
  have h32self : 32 ≤ hSize st.mem (p - payloadOffset) := hmin _ hselfcs
  have hmemcs : ∀ c, c ∈ xs ∨ c ∈ ys → c ∈ cs := by
    intro c hc
    rw [hcseq]
    rcases hc with h | h
    · exact List.mem_append.mpr (Or.inl h)
    · exact List.mem_append.mpr (Or.inr (List.mem_cons_of_mem _ h))
  rcases hnextd with hnext | ⟨nxt, ys2, hys0, hnext, hnxteq, hnxteven, hn16, hnm, htysr⟩
  · rcases hprevd with hprev | ⟨xs0, prw, hxseq, hprev, hpwb, hxs0, hpweven⟩
    · -- no merge in either direction
      rw [deallocate_none_none hnext hprev]
      exact inv_merge hxs htys hs16 hsm hszW h32self
        (fun c hc => hmin c (hmemcs c hc))
        hentry hsent hflxsys hfree hnd hsort hselffl
    · -- merge with the previous chunk only
      rw [deallocate_prev_free hnext hprev]
      have hprwxs : prw ∈ xs := by
        rw [hxseq]
        exact List.mem_append.mpr (Or.inr (List.mem_cons_self _ _))
      have hpwbnd := hxsb prw hprwxs
      have hsum : (hSize st.mem (p - payloadOffset) + hSize st.mem prw) % W =
          hSize st.mem (p - payloadOffset) + hSize st.mem prw :=
        Nat.mod_eq_of_lt (by omega)
      rw [hsum]
      have htysr2 : tilesSeg st.mem
          (prw + (hSize st.mem (p - payloadOffset) + hSize st.mem prw)) eH ys := by
        rw [show prw + (hSize st.mem (p - payloadOffset) + hSize st.mem prw) =
          p - payloadOffset + hSize st.mem (p - payloadOffset) from by omega]
        exact htys
      have ha32 : ∀ c, c ∈ xs0 ∨ c ∈ ys → 32 ≤ hSize st.mem c := by
        intro c hc
        rcases hc with h | h
        · refine hmin c (hmemcs c (Or.inl ?_))
          rw [hxseq]
          exact List.mem_append.mpr (Or.inl h)
        · exact hmin c (hmemcs c (Or.inr h))
      apply inv_merge hxs0 htysr2 (by omega) (by omega) (by omega) (by omega) ha32
        hentry hsent ?_ ?_ (hnd.erase prw) (hsort.sublist (List.erase_sublist _ _)) ?_
      · intro c hc
        have hcne : c ≠ prw := (hnd.mem_erase_iff.mp hc).1
        rcases hflxsys c (List.mem_of_mem_erase hc) with h1 | h1
        · rw [hxseq] at h1
          rcases List.mem_append.mp h1 with h2 | h2
          · exact Or.inl h2
          · rcases List.mem_cons.mp h2 with rfl | h3
            · exact absurd rfl hcne
            · exact absurd h3 (List.not_mem_nil c)
        · exact Or.inr h1
      · intro c hc
        exact hfree c (List.mem_of_mem_erase hc)
      · intro hmem
        exact absurd rfl ((hnd.mem_erase_iff.mp hmem).1)
  · have hnxtub : nxt + hSize st.mem nxt ≤ eH := (tilesSeg_sum htysr).1
    rcases hprevd with hprev | ⟨xs0, prw, hxseq, hprev, hpwb, hxs0, hpweven⟩
    · -- merge with the next chunk only
      rw [deallocate_next_free hnext hprev]
      have hsum : (hSize st.mem (p - payloadOffset) + hSize st.mem nxt) % W =
          hSize st.mem (p - payloadOffset) + hSize st.mem nxt :=
        Nat.mod_eq_of_lt (by omega)
      rw [hsum]
      have htysr2 : tilesSeg st.mem (p - payloadOffset +
          (hSize st.mem (p - payloadOffset) + hSize st.mem nxt)) eH ys2 := by
        rw [show p - payloadOffset +
          (hSize st.mem (p - payloadOffset) + hSize st.mem nxt) =
          nxt + hSize st.mem nxt from by omega]
        exact htysr
      have ha32 : ∀ c, c ∈ xs ∨ c ∈ ys2 → 32 ≤ hSize st.mem c := by
        intro c hc
        rcases hc with h | h
        · exact hmin c (hmemcs c (Or.inl h))
        · refine hmin c (hmemcs c (Or.inr ?_))
          rw [hys0]
          exact List.mem_cons_of_mem _ h
      apply inv_merge hxs htysr2 (by omega) (by omega) (by omega) (by omega) ha32
        hentry hsent ?_ ?_ (hnd.erase nxt) (hsort.sublist (List.erase_sublist _ _)) ?_
      · intro c hc
        have hcne : c ≠ nxt := (hnd.mem_erase_iff.mp hc).1
        rcases hflxsys c (List.mem_of_mem_erase hc) with h1 | h1
        · exact Or.inl h1
        · rw [hys0] at h1
          rcases List.mem_cons.mp h1 with rfl | h3
          · exact absurd rfl hcne
          · exact Or.inr h3
      · intro c hc
        exact hfree c (List.mem_of_mem_erase hc)
      · intro hmem
        exact hselffl (List.mem_of_mem_erase hmem)
    · -- merge with both neighbours
      rw [deallocate_both_free hnext hprev]
      have hprwxs : prw ∈ xs := by
        rw [hxseq]
        exact List.mem_append.mpr (Or.inr (List.mem_cons_self _ _))
      have hpwbnd := hxsb prw hprwxs
      have hsum : (hSize st.mem (p - payloadOffset) + hSize st.mem nxt) % W =
          hSize st.mem (p - payloadOffset) + hSize st.mem nxt :=
        Nat.mod_eq_of_lt (by omega)
      rw [hsum]
      have hsum2 : (hSize st.mem (p - payloadOffset) + hSize st.mem nxt +
          hSize st.mem prw) % W =
          hSize st.mem (p - payloadOffset) + hSize st.mem nxt + hSize st.mem prw :=
        Nat.mod_eq_of_lt (by omega)
      rw [hsum2]
      have htysr2 : tilesSeg st.mem (prw + (hSize st.mem (p - payloadOffset) +
          hSize st.mem nxt + hSize st.mem prw)) eH ys2 := by
        rw [show prw + (hSize st.mem (p - payloadOffset) + hSize st.mem nxt +
          hSize st.mem prw) = nxt + hSize st.mem nxt from by omega]
        exact htysr
      have hndn := hnd.erase nxt
      have ha32 : ∀ c, c ∈ xs0 ∨ c ∈ ys2 → 32 ≤ hSize st.mem c := by
        intro c hc
        rcases hc with h | h
        · refine hmin c (hmemcs c (Or.inl ?_))
          rw [hxseq]
          exact List.mem_append.mpr (Or.inl h)
        · refine hmin c (hmemcs c (Or.inr ?_))
          rw [hys0]
          exact List.mem_cons_of_mem _ h
      apply inv_merge hxs0 htysr2 (by omega) (by omega) (by omega) (by omega) ha32
        hentry hsent ?_ ?_ (hndn.erase prw)
        ((hsort.sublist (List.erase_sublist _ _)).sublist (List.erase_sublist _ _)) ?_
      · intro c hc
        have hcnep : c ≠ prw := (hndn.mem_erase_iff.mp hc).1
        have hc2 : c ∈ st.freeList.erase nxt := List.mem_of_mem_erase hc
        have hcnen : c ≠ nxt := (hnd.mem_erase_iff.mp hc2).1
        rcases hflxsys c (List.mem_of_mem_erase hc2) with h1 | h1
        · rw [hxseq] at h1
          rcases List.mem_append.mp h1 with h2 | h2
          · exact Or.inl h2
          · rcases List.mem_cons.mp h2 with rfl | h3
            · exact absurd rfl hcnep
            · exact absurd h3 (List.not_mem_nil c)
        · rw [hys0] at h1
          rcases List.mem_cons.mp h1 with rfl | h3
          · exact absurd rfl hcnen
          · exact Or.inr h3
      · intro c hc
        exact hfree c (List.mem_of_mem_erase (List.mem_of_mem_erase hc))
      · intro hmem
        exact absurd rfl ((hndn.mem_erase_iff.mp hmem).1)

theorem inv_construct {m : Mem} {b e : Nat}
    (hb : b + 31 < W) (h32 : beginAligned b + 32 ≤ endAligned e) :
    Inv (beginAligned b - 16) (endAligned e - 16) (construct m b e) := by
  have hnd : beginAligned b < endAligned e := by omega
  obtain ⟨hc, hb16, hbm, hem, heW⟩ := construct_nondegen hb hnd
  rw [hc]
  have hTm : (endAligned e - beginAligned b) % 16 = 0 := by omega
  have hT16 : 16 ≤ endAligned e - beginAligned b := by omega
  have hTW : endAligned e - beginAligned b < W := by
    have := W_pos
    omega
  have hTe : thisSizeWord
      (freshMem m (beginAligned b - 16) (endAligned e - beginAligned b))
      (beginAligned b - 16) = endAligned e - beginAligned b :=
    thisWord_freshMem (by omega) (by omega)
  have hhS : hSize
      (freshMem m (beginAligned b - 16) (endAligned e - beginAligned b))
      (beginAligned b - 16) = endAligned e - beginAligned b := by
    rw [hSize, hTe]
    exact maskFlag_of_even (by omega) hTW
  have heH : beginAligned b - 16 + (endAligned e - beginAligned b) =
      endAligned e - 16 := by omega
  refine inv_mk [beginAligned b - 16] ?_ ?_ ?_ ?_ ?_ ?_ ?_ ?_
  · rw [tilesSeg_cons]
    refine ⟨rfl, ?_, ?_, ?_, ?_⟩
    · rw [hhS]
      exact hT16
    · rw [hhS]
      exact hTm
    · left
      rw [hhS, heH, ← heH, sentinelPrev_freshMem (by omega), hTe]
    · rw [hhS, tilesSeg_nil]
      exact heH
  · rw [prevWord_freshMem]
  · rw [← heH]
    exact sentinelThis_freshMem
  · intro c hc2
    exact hc2
  · intro c hc2
    rcases List.mem_cons.mp hc2 with rfl | h
    · rw [hTe]
      omega
    · exact absurd h (List.not_mem_nil c)
  · exact List.nodup_singleton _
  · exact List.pairwise_singleton _ _
  · intro c hc2
    rcases List.mem_cons.mp hc2 with rfl | h
    · rw [hhS]
      omega
    · exact absurd h (List.not_mem_nil c)

theorem inv_runOps {h0 eH : Nat} (heHW : eH < W) :
    ∀ (ops : List Op) (st : AllocState), Inv h0 eH st →
      validOps h0 eH st ops = true → opsNoWrap ops = true →
      Inv h0 eH (runOps st ops) := by
  intro ops
  induction ops with
  | nil =>
    intro st hinv _ _
    exact hinv
  | cons o l ih =>
    intro st hinv hv hw
    cases o with
    | alloc n =>
      simp only [runOps, applyOp]
      simp only [validOps] at hv
      simp only [opsNoWrap, Bool.and_eq_true, decide_eq_true_eq] at hw
      exact ih _ (inv_allocate n (neededSize_ge32 hw.1) hinv) hv hw.2
    | release p =>
      simp only [runOps, applyOp]
      simp only [validOps, Bool.and_eq_true] at hv
      simp only [opsNoWrap] at hw
      exact ih _ (inv_deallocate heHW hinv hv.1) hv.2 hw

/-- C4, amended: on an allocator built over `[b, e)` whose aligned interior
is at least 32 bytes, after any sequence of allocate and deallocate
operations in which every allocation request is non-wrapping (at most
`2^64 - 32` bytes) and every deallocate is applied to a live pointer (the
payload address of a chunk of the current tiling whose header is marked in
use), the chunk headers still tile the managed region back to back, every
chunk keeps at least `sizeof(Header)` bytes — so `link`'s `nextFree` and
`prevFree` stores never touch a header word — and the sum of the masked
sizes of all chunks, free and used, header overhead included, equals the
aligned interior size `endAligned e - beginAligned b` fixed at
construction. -/
theorem conservation_of_chunk_sizes {m : Mem} {b e : Nat} (ops : List Op)
    (hb : b + 31 < W) (h32 : beginAligned b + 32 ≤ endAligned e)
    (hw : opsNoWrap ops = true)
    (hv : validOps (beginAligned b - 16) (endAligned e - 16)
      (construct m b e) ops = true) :
    ∃ cs, tilesSeg (runOps (construct m b e) ops).mem
        (beginAligned b - 16) (endAligned e - 16) cs ∧
      (∀ c ∈ cs, 32 ≤ hSize (runOps (construct m b e) ops).mem c) ∧
      (cs.map (hSize (runOps (construct m b e) ops).mem)).sum =
        endAligned e - beginAligned b := by
  have hnd : beginAligned b < endAligned e := by omega
  obtain ⟨-, hb16, -, -, heW⟩ := construct_nondegen (m := m) hb hnd
  have heHW : endAligned e - 16 < W := by
    have := W_pos
    omega
  obtain ⟨cs, htiles, -, -, -, -, -, -, hmin⟩ :=
    inv_runOps heHW ops _ (inv_construct hb h32) hv hw
  refine ⟨cs, htiles, hmin, ?_⟩
  have hsum := (tilesSeg_sum htiles).2
  omega

/-- C4 witness. -/
theorem conservation_of_chunk_sizes_witness :
    (0 : Nat) + 31 < W ∧ beginAligned 0 + 32 ≤ endAligned 128 ∧
    opsNoWrap [Op.alloc 20, Op.release 16, Op.alloc 60] = true ∧
    validOps (beginAligned 0 - 16) (endAligned 128 - 16)
      (construct (fun _ => 0) 0 128) [Op.alloc 20, Op.release 16, Op.alloc 60] = true ∧
    ∃ cs, tilesSeg (runOps (construct (fun _ => 0) 0 128)
        [Op.alloc 20, Op.release 16, Op.alloc 60]).mem
        (beginAligned 0 - 16) (endAligned 128 - 16) cs ∧
      (∀ c ∈ cs, 32 ≤ hSize (runOps (construct (fun _ => 0) 0 128)
        [Op.alloc 20, Op.release 16, Op.alloc 60]).mem c) ∧
      (cs.map (hSize (runOps (construct (fun _ => 0) 0 128)
        [Op.alloc 20, Op.release 16, Op.alloc 60]).mem)).sum =
        endAligned 128 - beginAligned 0 :=
  ⟨by decide, by decide, by decide, by decide,
    conservation_of_chunk_sizes [Op.alloc 20, Op.release 16, Op.alloc 60]
      (by decide) (by decide) (by decide) (by decide)⟩

/-- C4 counterexample to the original claim: on the region `[32, 80)` (a
16-byte aligned interior, chunk header at 32, sentinel at 48) the
constructor's own `link(&m_freeList)` already overwrote the sentinel words
with its `nextFree`/`prevFree` stores; the wrapped request `2^64 - 16`
(needed size 0) then succeeds, returning payload 48 of the chunk at 32,
which is marked in use — a live pointer — and `deallocate(48)` reads the
clobbered sentinel as a free neighbour, merging a phantom chunk.  In the
store-accurate embedding (head slot at 1000, surrounding memory zero) the
resulting memory admits no chunk tiling of the interior at all, so the
chunk sizes cannot sum to the constructed interior size. -/
theorem conservation_counterexample :
    (allocateR (constructR (fun _ => 0) 32 80 1000 20) 1000 20 (W - 16)).1 =
      some 48 ∧
    thisSizeWord (allocateR (constructR (fun _ => 0) 32 80 1000 20) 1000 20
      (W - 16)).2 32 % 2 = 1 ∧
    ∀ cs, ¬ tilesSeg (deallocateR (allocateR (constructR (fun _ => 0) 32 80
        1000 20) 1000 20 (W - 16)).2 1000 20 48) 32 48 cs := by
  refine ⟨by decide, by decide, fun cs h => ?_⟩
  have hwalk := walkChunks_of_tilesSeg h (show 48 - 32 ≤ 16 from by omega)
  rw [show walkChunks (deallocateR (allocateR (constructR (fun _ => 0) 32 80
      1000 20) 1000 20 (W - 16)).2 1000 20 48) 48 16 32 = none from by decide]
    at hwalk
  exact absurd hwalk (by simp)

/-- C6, amended: after any sequence of valid operations — non-wrapping
allocation requests, deallocation only of live pointers — on an allocator
whose aligned interior is at least 32 bytes (so every linked chunk has a
full header and `link`'s field stores stay interior), the free list is
sorted non-decreasing by masked chunk size; moreover, `Header::link`
(modelled by `linkList`) always inserts a chunk immediately before the
first list element of equal-or-greater masked size, or at the end when
every element is smaller. -/
theorem free_list_sorted_after_ops {m : Mem} {b e : Nat} (ops : List Op)
    (hb : b + 31 < W) (h32 : beginAligned b + 32 ≤ endAligned e)
    (hw : opsNoWrap ops = true)
    (hv : validOps (beginAligned b - 16) (endAligned e - 16)
      (construct m b e) ops = true) :
    (runOps (construct m b e) ops).freeList.Pairwise
      (fun x y => hSize (runOps (construct m b e) ops).mem x ≤
        hSize (runOps (construct m b e) ops).mem y) ∧
    (∀ (m2 : Mem) (a : Nat) (l : List Nat), ∃ l1 l2, l = l1 ++ l2 ∧
      linkList m2 a l = l1 ++ a :: l2 ∧
      (∀ c ∈ l1, hSize m2 c < hSize m2 a) ∧
      (∀ c, l2.head? = some c → hSize m2 a ≤ hSize m2 c)) := by
  constructor
  · have hnd : beginAligned b < endAligned e := by omega
    obtain ⟨-, hb16, -, -, heW⟩ := construct_nondegen (m := m) hb hnd
    have heHW : endAligned e - 16 < W := by
      have := W_pos
      omega
    obtain ⟨-, -, -, -, -, -, -, hsort, -⟩ :=
      inv_runOps heHW ops _ (inv_construct hb h32) hv hw
    exact hsort
  · intro m2 a l
    exact linkList_decomp m2 a l

/-- C6 witness. -/
theorem free_list_sorted_after_ops_witness :
    (0 : Nat) + 31 < W ∧ beginAligned 0 + 32 ≤ endAligned 128 ∧
    opsNoWrap [Op.alloc 20, Op.release 16] = true ∧
    validOps (beginAligned 0 - 16) (endAligned 128 - 16)
      (construct (fun _ => 0) 0 128) [Op.alloc 20, Op.release 16] = true ∧
    ((runOps (construct (fun _ => 0) 0 128) [Op.alloc 20, Op.release 16]).freeList.Pairwise
      (fun x y => hSize (runOps (construct (fun _ => 0) 0 128)
          [Op.alloc 20, Op.release 16]).mem x ≤
        hSize (runOps (construct (fun _ => 0) 0 128)
          [Op.alloc 20, Op.release 16]).mem y) ∧
    (∀ (m2 : Mem) (a : Nat) (l : List Nat), ∃ l1 l2, l = l1 ++ l2 ∧
      linkList m2 a l = l1 ++ a :: l2 ∧
      (∀ c ∈ l1, hSize m2 c < hSize m2 a) ∧
      (∀ c, l2.head? = some c → hSize m2 a ≤ hSize m2 c))) :=
  ⟨by decide, by decide, by decide, by decide,
    free_list_sorted_after_ops [Op.alloc 20, Op.release 16]
      (by decide) (by decide) (by decide) (by decide)⟩

/-- C6 counterexample to the original claim: on the 16-byte interior
`[32, 80)` with head slot at 1000, the valid trace
`allocate (2^64 - 16); deallocate 48` makes the program follow and store
through the sentinel words that its own constructor's `link` clobbered: the
final `link` of the phantom-merged chunk walks memory the allocator never
wrote and splices the merged chunk behind two fake chunks.  Traversing the
resulting in-memory free list from the head via `nextFree` visits chunk
sizes 48, 32, 1016 — not non-decreasing — so the traversal-order claim
fails on the program. -/
theorem free_list_unsorted_counterexample :
    (allocateR (constructR cexMemSort 32 80 1000 20) 1000 20 (W - 16)).1 =
      some 48 ∧
    thisSizeWord (allocateR (constructR cexMemSort 32 80 1000 20) 1000 20
      (W - 16)).2 32 % 2 = 1 ∧
    (freeListTraverse (deallocateR (allocateR (constructR cexMemSort 32 80
        1000 20) 1000 20 (W - 16)).2 1000 20 48) 10
      ((deallocateR (allocateR (constructR cexMemSort 32 80 1000 20) 1000 20
        (W - 16)).2 1000 20 48) 1000)).map
      (hSize (deallocateR (allocateR (constructR cexMemSort 32 80 1000 20)
        1000 20 (W - 16)).2 1000 20 48)) = [48, 32, 1016] ∧
    ¬ (freeListTraverse (deallocateR (allocateR (constructR cexMemSort 32 80
        1000 20) 1000 20 (W - 16)).2 1000 20 48) 10
      ((deallocateR (allocateR (constructR cexMemSort 32 80 1000 20) 1000 20
        (W - 16)).2 1000 20 48) 1000)).Pairwise
      (fun x y => hSize (deallocateR (allocateR (constructR cexMemSort 32 80
          1000 20) 1000 20 (W - 16)).2 1000 20 48) x ≤
        hSize (deallocateR (allocateR (constructR cexMemSort 32 80 1000 20)
          1000 20 (W - 16)).2 1000 20 48) y) := by
  refine ⟨by decide, by decide, by decide, ?_⟩
  intro hpw
  rw [show freeListTraverse (deallocateR (allocateR (constructR cexMemSort 32
      80 1000 20) 1000 20 (W - 16)).2 1000 20 48) 10
      ((deallocateR (allocateR (constructR cexMemSort 32 80 1000 20) 1000 20
        (W - 16)).2 1000 20 48) 1000) = [256, 320, 32] from by decide] at hpw
  have h1 := (List.pairwise_cons.mp hpw).1 320 (List.mem_cons_self _ _)
  rw [show hSize (deallocateR (allocateR (constructR cexMemSort 32 80 1000
      20) 1000 20 (W - 16)).2 1000 20 48) 256 = 48 from by decide,
    show hSize (deallocateR (allocateR (constructR cexMemSort 32 80 1000
      20) 1000 20 (W - 16)).2 1000 20 48) 320 = 32 from by decide] at h1
  omega

theorem degenerate_steady {h0 eH : Nat} {m : Mem} (hde : eH ≤ h0) :
    ∀ ops : List Op, validOps h0 eH (⟨m, []⟩ : AllocState) ops = true →
      runOps (⟨m, []⟩ : AllocState) ops = ⟨m, []⟩ := by
  intro ops
  induction ops with
  | nil =>
    intro _
    rfl
  | cons o l ih =>
    intro hv
    cases o with
    | alloc k =>
      have hall : allocate (⟨m, []⟩ : AllocState) k = (none, ⟨m, []⟩) := by
        simp only [allocate, firstFit]
      simp only [runOps, applyOp, hall]
      simp only [validOps, hall] at hv
      exact ih hv
    | release q =>
      simp only [validOps, Bool.and_eq_true] at hv
      have hlb : liveBlock h0 eH (⟨m, []⟩ : AllocState) q = false := by
        simp only [liveBlock]
        have h0f : eH - h0 = 0 := by omega
        rw [h0f]
        simp only [walkChunks]
        by_cases he : h0 = eH
        · rw [if_pos he]
          simp
        · rw [if_neg he]
      rw [hlb] at hv
      exact absurd hv.1 (by simp)

/-- C9, amended: every non-null pointer returned by `allocate` is aligned to
the maximum scalar alignment of 16 bytes, on any allocator state reachable
from construction by a sequence of valid operations with non-wrapping
allocation requests, for a region whose aligned interior is either at least
32 bytes or degenerate (empty); only the 16-byte interior, where the
constructor's own `link` stores corrupt the sentinel words, is excluded. -/
theorem allocate_returns_aligned {m : Mem} {b e n p : Nat} (ops : List Op)
    (hb : b + 31 < W)
    (hreg : beginAligned b + 32 ≤ endAligned e ∨ endAligned e ≤ beginAligned b)
    (hw : opsNoWrap ops = true)
    (hv : validOps (beginAligned b - 16) (endAligned e - 16)
      (construct m b e) ops = true)
    (hp : (allocate (runOps (construct m b e) ops) n).1 = some p) :
    p % maxAlignment = 0 := by
  rcases hreg with h32 | hdeg
  · have hnd : beginAligned b < endAligned e := by omega
    obtain ⟨-, hb16, hbm, -, heW⟩ := construct_nondegen (m := m) hb hnd
    have heHW : endAligned e - 16 < W := by
      have := W_pos
      omega
    obtain ⟨cs, htiles, -, -, hsub, -, -, -, -⟩ :=
      inv_runOps heHW ops _ (inv_construct hb h32) hv hw
    cases hf : firstFit (runOps (construct m b e) ops).mem (neededSize n)
        (runOps (construct m b e) ops).freeList with
    | none =>
      have hres : allocate (runOps (construct m b e) ops) n =
          (none, runOps (construct m b e) ops) := by
        simp only [allocate, hf]
      rw [hres] at hp
      exact absurd hp (by simp)
    | some a =>
      have h1 := allocate_fst_of_found hf
      rw [h1] at hp
      injection hp with hp
      have ha := (firstFit_some hf).1
      have hacs := hsub a ha
      have hmod : (beginAligned b - 16) % 16 = 0 := by omega
      have hca := (tilesSeg_mod16 htiles hmod).2 a hacs
      rw [show payloadOffset = 16 from rfl] at hp
      rw [show maxAlignment = 16 from rfl]
      omega
  · have hcon : construct m b e = (⟨m, []⟩ : AllocState) := by
      simp only [construct]
      rw [if_pos (by omega)]
    rw [hcon] at hv hp
    rw [degenerate_steady (by omega) ops hv] at hp
    have hall : allocate (⟨m, []⟩ : AllocState) n = (none, ⟨m, []⟩) := by
      simp only [allocate, firstFit]
    rw [hall] at hp
    exact absurd hp (by simp)

/-- C9 witness. -/
theorem allocate_returns_aligned_witness :
    (0 : Nat) + 31 < W ∧
    (beginAligned 0 + 32 ≤ endAligned 128 ∨ endAligned 128 ≤ beginAligned 0) ∧
    opsNoWrap [Op.alloc 20, Op.release 16] = true ∧
    validOps (beginAligned 0 - 16) (endAligned 128 - 16)
      (construct (fun _ => 0) 0 128) [Op.alloc 20, Op.release 16] = true ∧
    (allocate (runOps (construct (fun _ => 0) 0 128)
      [Op.alloc 20, Op.release 16]) 20).1 = some 16 ∧
    (16 : Nat) % maxAlignment = 0 :=
  ⟨by decide, by decide, by decide, by decide, by decide,
    allocate_returns_aligned (m := fun _ => 0) (b := 0) (e := 128) (n := 20)
      (p := 16) [Op.alloc 20, Op.release 16]
      (by decide) (Or.inl (by decide)) (by decide) (by decide) (by decide)⟩

/-- C9 counterexample to the original claim: on the 16-byte interior
`[32, 80)` with head slot at 1000, the valid trace
`allocate (2^64 - 16); deallocate 48` makes the deallocation follow the
sentinel words clobbered by the constructor's own `link` stores, splicing a
fake chunk at the unaligned address 250 into the in-memory free list; the
next `allocate 1024` walks that list and returns the payload pointer 266,
which is not 16-byte aligned. -/
theorem allocate_misaligned_counterexample :
    (allocateR (constructR cexMemAlign 32 80 1000 20) 1000 20 (W - 16)).1 =
      some 48 ∧
    thisSizeWord (allocateR (constructR cexMemAlign 32 80 1000 20) 1000 20
      (W - 16)).2 32 % 2 = 1 ∧
    (allocateR (deallocateR (allocateR (constructR cexMemAlign 32 80 1000
      20) 1000 20 (W - 16)).2 1000 20 48) 1000 20 1024).1 = some 266 ∧
    266 % maxAlignment ≠ 0 := by
  refine ⟨by decide, by decide, by decide, by decide⟩

end Eule
